import Mathlib

/-!
Verification development for the `diskcache` Go package (`diskcache.go`).

The filesystem is modelled as an association list from filenames to file
contents, relative to the cache directory (`Cache.dir` is a fixed prefix of
every path and is dropped from the model).  Time (`time.Time`) is modelled as
an integer instant (`Int`), with `t.Before u` = `t < u`, `t.After u` = `t > u`
and the zero `time.Time` as `0`; `time.Duration` is likewise an `Int`, and
`time.Now()` is passed explicitly as a parameter `now`.  JSON serialization of
a `Data` record is modelled as the record itself (`json.Marshal` never fails
on `Data` and `json.Unmarshal` inverts it); a file that does not unmarshal is
`FileContent.corrupt`.
-/

set_option maxRecDepth 10000
set_option maxHeartbeats 1000000
set_option linter.unusedSectionVars false
set_option linter.unusedVariables false

namespace DC

/-! ### 32-bit word arithmetic on `Nat` (for SHA-256) -/

/-- Combine two naturals bit by bit with `f` on the lowest `n` binary digits. -/
def bitsN (f : Nat → Nat → Nat) : Nat → Nat → Nat → Nat
  | 0, _, _ => 0
  | n + 1, x, y => f (x % 2) (y % 2) + 2 * bitsN f n (x / 2) (y / 2)

/-- Combine three naturals bit by bit with `f` on the lowest `n` binary digits. -/
def bits3N (f : Nat → Nat → Nat → Nat) : Nat → Nat → Nat → Nat → Nat
  | 0, _, _, _ => 0
  | n + 1, x, y, z => f (x % 2) (y % 2) (z % 2) + 2 * bits3N f n (x / 2) (y / 2) (z / 2)

/-- Bitwise XOR on 32-bit words. -/
def xor32 (x y : Nat) : Nat := bitsN (fun a b => (a + b) % 2) 32 x y

/-- The SHA-256 `Ch` function: bitwise `if e then f else g` on 32-bit words. -/
def ch32 (e f g : Nat) : Nat := bits3N (fun a b c => if a = 1 then b else c) 32 e f g

/-- The SHA-256 `Maj` function: bitwise majority on 32-bit words. -/
def maj32 (x y z : Nat) : Nat := bits3N (fun a b c => if 2 ≤ a + b + c then 1 else 0) 32 x y z

/-- Right rotation of a 32-bit word by `n` bits. -/
def rotr32 (x n : Nat) : Nat := x / 2 ^ n + x % 2 ^ n * 2 ^ (32 - n)

/-- Right shift of a 32-bit word. -/
def shr32 (x n : Nat) : Nat := x / 2 ^ n

/-- Addition modulo `2^32`. -/
def add32 (x y : Nat) : Nat := (x + y) % 4294967296

def bigSigma0 (x : Nat) : Nat := xor32 (xor32 (rotr32 x 2) (rotr32 x 13)) (rotr32 x 22)

def bigSigma1 (x : Nat) : Nat := xor32 (xor32 (rotr32 x 6) (rotr32 x 11)) (rotr32 x 25)

def smallSigma0 (x : Nat) : Nat := xor32 (xor32 (rotr32 x 7) (rotr32 x 18)) (shr32 x 3)

def smallSigma1 (x : Nat) : Nat := xor32 (xor32 (rotr32 x 17) (rotr32 x 19)) (shr32 x 10)

/-! ### SHA-256 (`crypto/sha256.Sum256`) -/

/-- The SHA-256 round constants (FIPS 180-4), in decimal. -/
def shaK : List Nat :=
  [1116352408, 1899447441, 3049323471, 3921009573, 961987163, 1508970993,
   2453635748, 2870763221, 3624381080, 310598401, 607225278, 1426881987,
   1925078388, 2162078206, 2614888103, 3248222580, 3835390401, 4022224774,
   264347078, 604807628, 770255983, 1249150122, 1555081692, 1996064986,
   2554220882, 2821834349, 2952996808, 3210313671, 3336571891, 3584528711,
   113926993, 338241895, 666307205, 773529912, 1294757372, 1396182291,
   1695183700, 1986661051, 2177026350, 2456956037, 2730485921, 2820302411,
   3259730800, 3345764771, 3516065817, 3600352804, 4094571909, 275423344,
   430227734, 506948616, 659060556, 883997877, 958139571, 1322822218,
   1537002063, 1747873779, 1955562222, 2024104815, 2227730452, 2361852424,
   2428436474, 2756734187, 3204031479, 3329325298]

/-- The SHA-256 initial hash value (FIPS 180-4), in decimal. -/
def shaH0 : List Nat :=
  [1779033703, 3144134277, 1013904242, 2773480762,
   1359893119, 2600822924, 528734635, 1541459225]

/-- Big-endian bytes (most significant first) of `x`, `n` bytes wide. -/
def beBytes : Nat → Nat → List Nat
  | 0, _ => []
  | n + 1, x => beBytes n (x / 256) ++ [x % 256]

/-- SHA-256 padding: append `0x80`, zeros, and the 64-bit big-endian bit length. -/
def shaPad (msg : List Nat) : List Nat :=
  msg ++ 0x80 :: List.replicate ((119 - msg.length % 64) % 64) 0 ++ beBytes 8 (msg.length * 8)

/-- Group a padded byte string into 32-bit big-endian words. -/
def toWords : List Nat → List Nat
  | b0 :: b1 :: b2 :: b3 :: rest => (((b0 * 256 + b1) * 256 + b2) * 256 + b3) :: toWords rest
  | _ => []

/-- Group a word list into blocks of 16 words (the fuel bounds the recursion
and is the word count at the top call). -/
def toBlocksF : Nat → List Nat → List (List Nat)
  | 0, _ => []
  | fuel + 1, ws => if ws.length < 16 then [] else ws.take 16 :: toBlocksF fuel (ws.drop 16)

/-- Group a padded word list into blocks of 16 words. -/
def toBlocks (ws : List Nat) : List (List Nat) :=
  toBlocksF ws.length ws

/-- Extend a 16-word block to the 64-word message schedule; the next index to
fill is `w.size`, and the fuel counts the remaining 48 pushes. -/
def shaExtend : Nat → Array Nat → Array Nat
  | 0, w => w
  | n + 1, w =>
    shaExtend n (w.push
      (add32 (add32 (w.getD (w.size - 16) 0) (smallSigma0 (w.getD (w.size - 15) 0)))
             (add32 (w.getD (w.size - 7) 0) (smallSigma1 (w.getD (w.size - 2) 0)))))

/-- The 64 compression rounds, over paired round constants and schedule words. -/
def shaRounds : List (Nat × Nat) → Nat → Nat → Nat → Nat → Nat → Nat → Nat → Nat →
    Nat × Nat × Nat × Nat × Nat × Nat × Nat × Nat
  | [], a, b, c, d, e, f, g, h => (a, b, c, d, e, f, g, h)
  | (k, w) :: rest, a, b, c, d, e, f, g, h =>
    let t1 := add32 (add32 (add32 h (bigSigma1 e)) (add32 (ch32 e f g) k)) w
    let t2 := add32 (bigSigma0 a) (maj32 a b c)
    shaRounds rest (add32 t1 t2) a b c (add32 d t1) e f g

/-- Process one 16-word block, updating the running hash. -/
def shaBlock (h : List Nat) (block : List Nat) : List Nat :=
  let w := shaExtend 48 block.toArray
  match shaRounds (shaK.zip w.toList) (h.getD 0 0) (h.getD 1 0) (h.getD 2 0) (h.getD 3 0)
      (h.getD 4 0) (h.getD 5 0) (h.getD 6 0) (h.getD 7 0) with
  | (a, b, c, d, e, f, g, hh) =>
    [add32 (h.getD 0 0) a, add32 (h.getD 1 0) b, add32 (h.getD 2 0) c, add32 (h.getD 3 0) d,
     add32 (h.getD 4 0) e, add32 (h.getD 5 0) f, add32 (h.getD 6 0) g, add32 (h.getD 7 0) hh]

/-- SHA-256 digest of a byte string, as 32 bytes. -/
def sha256 (msg : List Nat) : List Nat :=
  ((toBlocks (toWords (shaPad msg))).foldl shaBlock shaH0).flatMap (beBytes 4)

/-! ### Hex formatting and UTF-8 (for `fmt.Sprintf("%x.json", ...)`) -/

/-- One lowercase hex digit. -/
def hexDigit (n : Nat) : Char :=
  if n < 10 then Char.ofNat (48 + n) else Char.ofNat (87 + n)

/-- Lowercase hex string of a byte string. -/
def hexBytes (bs : List Nat) : String :=
  String.mk (bs.flatMap (fun b => [hexDigit (b / 16), hexDigit (b % 16)]))

/-- UTF-8 encoding of one character (code point). -/
def utf8Char (c : Nat) : List Nat :=
  if c < 0x80 then [c]
  else if c < 0x800 then [0xc0 + c / 64, 0x80 + c % 64]
  else if c < 0x10000 then [0xe0 + c / 4096, 0x80 + c / 64 % 64, 0x80 + c % 64]
  else [0xf0 + c / 262144, 0x80 + c / 4096 % 64, 0x80 + c / 64 % 64, 0x80 + c % 64]

/-- UTF-8 bytes of a string (`[]byte(key)` in Go). -/
def utf8Bytes (s : String) : List Nat :=
  s.data.flatMap (fun c => utf8Char c.toNat)

/-! ### The cache data model (`diskcache.go`)

`New`, `Delete` and `Dir` only manage the directory itself and are not needed
by any claim; the remaining operations are modelled below.  A directory is an
association list from filenames to file contents, kept in filename order (the
order `os.ReadDir` enumerates). -/

/-- A cache entry (`type Data struct { Expiry time.Time; Key string; Value []byte }`). -/
structure Data where
  Expiry : Int
  Key : String
  Value : List Nat
deriving DecidableEq, Repr, Inhabited

/-- Contents of one file: either a valid JSON marshaling of a `Data` record, or
bytes that fail to unmarshal. -/
inductive FileContent where
  | json (d : Data)
  | corrupt
deriving DecidableEq, Repr

/-- The errors the modelled operations can surface. -/
inductive Err where
  /-- `"key cannot be empty"` from `Set`. -/
  | keyEmpty
  /-- `"error reading data: %w"`: `os.ReadFile` failed (no such file). -/
  | readError
  /-- `"error unmarshaling data: %w"`: the file exists but does not parse. -/
  | unmarshalError
  /-- `"cache expired"` from `Get`. -/
  | expired
  /-- `os.Remove` failed (no such file). -/
  | removeError
deriving DecidableEq, Repr

/-- The state of the cache directory: filenames with their contents, in the
sorted order `os.ReadDir` reports. -/
abbrev Dir := List (String × FileContent)

instance {ε σ : Type} [DecidableEq ε] [DecidableEq σ] : DecidableEq (Except ε σ) := fun a b =>
  match a, b with
  | .error e, .error e' => if h : e = e' then .isTrue (by rw [h]) else .isFalse (by simp [h])
  | .ok s, .ok s' => if h : s = s' then .isTrue (by rw [h]) else .isFalse (by simp [h])
  | .error _, .ok _ => .isFalse (by simp)
  | .ok _, .error _ => .isFalse (by simp)

/-- Lookup a filename (`os.ReadFile`/`os.Stat` addressing). -/
def lookupFile : Dir → String → Option FileContent
  | [], _ => none
  | (n, fc) :: rest, name => if name = n then some fc else lookupFile rest name

/-- `os.WriteFile`: create or replace the file, keeping the name order. -/
def osWriteFile : Dir → String → FileContent → Dir
  | [], name, c => [(name, c)]
  | (n, fc) :: rest, name, c =>
    if name = n then (name, c) :: rest
    else if name < n then (name, c) :: (n, fc) :: rest
    else (n, fc) :: osWriteFile rest name c

/-- `os.Remove`: delete the file, failing if it does not exist. -/
def osRemove : Dir → String → Except Err Dir
  | [], _ => .error .removeError
  | (n, fc) :: rest, name =>
    if name = n then .ok rest
    else (osRemove rest name).map ((n, fc) :: ·)

/-- `Filename`: `fmt.Sprintf("%x.json", sha256.Sum256([]byte(key)))`. -/
def Filename (key : String) : String :=
  hexBytes (sha256 (utf8Bytes key)) ++ ".json"

/-- `Set(key, value, duration)`: reject the empty key, then marshal
`Data{Key, Value, Expiry: time.Now().Add(duration)}` and write it to the
hash-derived filename. -/
def Set (dir : Dir) (now : Int) (key : String) (value : List Nat) (duration : Int) :
    Except Err Dir :=
  if key.length = 0 then .error .keyEmpty
  else .ok (osWriteFile dir (Filename key) (.json ⟨now + duration, key, value⟩))

/-- `readFile(filename)`: read and unmarshal one file. -/
def readFile (dir : Dir) (filename : String) : Except Err Data :=
  match lookupFile dir filename with
  | none => .error .readError
  | some .corrupt => .error .unmarshalError
  | some (.json d) => .ok d

/-- `Read(key)`: read the entry for a key, ignoring expiry. -/
def Read (dir : Dir) (key : String) : Except Err Data :=
  readFile dir (Filename key)

/-- `Has(key)`: does a file exist for the key's hash? -/
def Has (dir : Dir) (key : String) : Bool :=
  (lookupFile dir (Filename key)).isSome

/-- `Get(key)`: read the entry, fail with `"cache expired"` when
`time.Now().After(entry.Expiry)`, otherwise return the value.  `Get` never
writes: the directory state is unchanged (its type has no `Dir` result). -/
def Get (dir : Dir) (now : Int) (key : String) : Except Err (List Nat) :=
  match Read dir key with
  | .error e => .error e
  | .ok entry => if now > entry.Expiry then .error .expired else .ok entry.Value

/-- `Expiry(key)`: the stored expiry, or the zero time when `Read` fails. -/
def Expiry (dir : Dir) (key : String) : Int :=
  match Read dir key with
  | .error _ => 0
  | .ok entry => entry.Expiry

/-- `IsExpired(key)`: `time.Now().After(c.Expiry(key))`. -/
def IsExpired (dir : Dir) (now : Int) (key : String) : Bool :=
  now > Expiry dir key

/-- The loop of the private `list`: read every directory entry in order,
aborting on the first failure. -/
def listLoop (dir : Dir) : List (String × FileContent) → Except Err (List Data)
  | [] => .ok []
  | (name, _) :: rest =>
    match readFile dir name with
    | .error e => .error e
    | .ok d => (listLoop dir rest).map (d :: ·)

/-- The private `list()`: parse every file in the directory, all-or-nothing. -/
def list (dir : Dir) : Except Err (List Data) :=
  listLoop dir dir

/-- `List(options...)`: enumerate everything, then apply each in-place sort
option in sequence.  (Named `ListEntries` because `List` is taken in Lean.) -/
def ListEntries (dir : Dir) (options : List (List Data → List Data)) :
    Except Err (List Data) :=
  match list dir with
  | .error e => .error e
  | .ok l => .ok (options.foldl (fun acc o => o acc) l)

/-- `Remove(key)`: delete the entry's file. -/
def Remove (dir : Dir) (key : String) : Except Err Dir :=
  osRemove dir (Filename key)

/-- The loop of `Flush`: remove every listed name, joining (not aborting on)
errors, in encounter order as `errors.Join` does. -/
def flushLoop (dir : Dir) : List String → Dir × List Err
  | [] => (dir, [])
  | name :: rest =>
    match osRemove dir name with
    | .error e =>
      match flushLoop dir rest with
      | (d, es) => (d, e :: es)
    | .ok dir' => flushLoop dir' rest

/-- `Flush()`: delete every file `os.ReadDir` lists, aggregating per-file
errors; the error list is empty exactly when Go's `errs` is `nil`. -/
def Flush (dir : Dir) : Dir × List Err :=
  flushLoop dir (dir.map (·.1))

/-- The per-entry body of `Clean`'s goroutines, run over the parsed entries:
skip entries with `time.Now().Before(data.Expiry)`, remove the rest by key,
collecting errors.  The goroutines are modelled sequentially: for directories
whose filenames are distinct (every real directory) each removal targets a
distinct file, so the concurrent removals commute and the final state and
error multiset match the sequential run. -/
def cleanLoop (dir : Dir) (now : Int) : List Data → Dir × List Err
  | [] => (dir, [])
  | d :: rest =>
    if now < d.Expiry then cleanLoop dir now rest
    else
      match osRemove dir (Filename d.Key) with
      | .error e =>
        match cleanLoop dir now rest with
        | (dd, es) => (dd, e :: es)
      | .ok dir' => cleanLoop dir' now rest

/-- `Clean()`: parse all entries (a parse failure is fatal and leaves the
directory untouched), then delete every entry whose expiry is not in the
future, aggregating removal errors. -/
def Clean (dir : Dir) (now : Int) : Dir × List Err :=
  match list dir with
  | .error e => (dir, [e])
  | .ok l => cleanLoop dir now l

/-! ### Go's `slices.SortFunc` (pattern-defeating quicksort)

`SortByExpiry`, `SortByKey` and `SortByValue` sort in place with
`slices.SortFunc`, which the Go standard library implements as pdqsort
(`slices/zsortanyfunc.go`, identical to `sort/zsortfunc.go`); it is
documented as not guaranteed to be stable.  The algorithm is embedded
faithfully below; loops become fueled recursion with fuel generous enough
that it never runs out on the ranges the algorithm actually visits, and
in-place swaps become `aswap`.  `idx` is Go's `data[i]`. -/

section GoSort

variable {α : Type} [Inhabited α]

/-- Read `data[i]` (always in range in the actual algorithm). -/
def idx (arr : Array α) (i : Nat) : α := arr.getD i default

/-- Swap `data[i]` and `data[j]` (always in range in the actual algorithm). -/
def aswap (arr : Array α) (i j : Nat) : Array α :=
  if h : i < arr.size ∧ j < arr.size then arr.swap ⟨i, h.1⟩ ⟨j, h.2⟩ else arr

/-- The inner loop of `insertionSortCmpFunc`:
`for j := i; j > a && cmp(data[j], data[j-1]) < 0; j--` with a swap each step. -/
def insertInner (cmp : α → α → Int) (a : Nat) : Array α → Nat → Array α
  | arr, 0 => arr
  | arr, j + 1 =>
    if a < j + 1 ∧ cmp (idx arr (j + 1)) (idx arr j) < 0 then
      insertInner cmp a (aswap arr (j + 1) j) j
    else arr

/-- The outer loop of `insertionSortCmpFunc`: `for i := a + 1; i < b; i++`. -/
def insertionSortLoop (cmp : α → α → Int) (a b : Nat) : Array α → Nat → Nat → Array α
  | arr, _, 0 => arr
  | arr, i, fuel + 1 =>
    if i < b then insertionSortLoop cmp a b (insertInner cmp a arr i) (i + 1) fuel
    else arr

/-- `insertionSortCmpFunc(data, a, b, cmp)`. -/
def goInsertionSort (cmp : α → α → Int) (arr : Array α) (a b : Nat) : Array α :=
  insertionSortLoop cmp a b arr (a + 1) b

/-- The loop of `siftDownCmpFunc(data, lo, hi, first, cmp)`, from `root := lo`. -/
def siftDownLoop (cmp : α → α → Int) (hi first : Nat) : Array α → Nat → Nat → Array α
  | arr, _, 0 => arr
  | arr, root, fuel + 1 =>
    let child0 := 2 * root + 1
    if child0 ≥ hi then arr
    else
      let child :=
        if child0 + 1 < hi ∧ cmp (idx arr (first + child0)) (idx arr (first + child0 + 1)) < 0
        then child0 + 1 else child0
      if ¬ cmp (idx arr (first + root)) (idx arr (first + child)) < 0 then arr
      else siftDownLoop cmp hi first (aswap arr (first + root) (first + child)) child fuel

/-- `siftDownCmpFunc(data, lo, hi, first, cmp)`. -/
def goSiftDown (cmp : α → α → Int) (arr : Array α) (lo hi first : Nat) : Array α :=
  siftDownLoop cmp hi first arr lo hi

/-- The heap-building loop of `heapSortCmpFunc`: `for i := (hi-1)/2; i >= 0; i--`,
called with the iteration count, so `i = n` at fuel `n + 1`. -/
def heapBuildLoop (cmp : α → α → Int) (hi first : Nat) : Array α → Nat → Array α
  | arr, 0 => arr
  | arr, n + 1 => heapBuildLoop cmp hi first (goSiftDown cmp arr n hi first) n

/-- The pop loop of `heapSortCmpFunc`: `for i := hi-1; i >= 0; i--` with
`swap(first, first+i); siftDown(lo, i, first)`. -/
def heapPopLoop (cmp : α → α → Int) (first : Nat) : Array α → Nat → Array α
  | arr, 0 => arr
  | arr, n + 1 =>
    heapPopLoop cmp first (goSiftDown cmp (aswap arr first (first + n)) 0 n first) n

/-- `heapSortCmpFunc(data, a, b, cmp)`. -/
def goHeapSort (cmp : α → α → Int) (arr : Array α) (a b : Nat) : Array α :=
  heapPopLoop cmp a (heapBuildLoop cmp (b - a) a arr ((b - a - 1) / 2 + 1)) (b - a)

/-- `reverseRangeCmpFunc(data, a, b, cmp)`: swap `i`/`j` from the two ends. -/
def reverseRangeLoop : Array α → Nat → Nat → Nat → Array α
  | arr, _, _, 0 => arr
  | arr, i, j, fuel + 1 =>
    if i < j then reverseRangeLoop (aswap arr i j) (i + 1) (j - 1) fuel else arr

/-- `reverseRangeCmpFunc(data, a, b, cmp)`. -/
def goReverseRange (arr : Array α) (a b : Nat) : Array α :=
  reverseRangeLoop arr a (b - 1) b

/-- The chosen-pivot hints (`unknownHint`, `increasingHint`, `decreasingHint`). -/
inductive Hint where
  | unknown
  | increasing
  | decreasing
deriving DecidableEq, Repr

/-- `order2CmpFunc`: order two indices by their elements, counting swaps. -/
def order2 (cmp : α → α → Int) (arr : Array α) (a b swaps : Nat) : Nat × Nat × Nat :=
  if cmp (idx arr b) (idx arr a) < 0 then (b, a, swaps + 1) else (a, b, swaps)

/-- `medianCmpFunc`: index of the median of three elements, counting swaps
(`a, b = order2(a, b); b, c = order2(b, c); a, b = order2(a, b); return b`). -/
def median (cmp : α → α → Int) (arr : Array α) (a b c swaps : Nat) : Nat × Nat :=
  let r1 := order2 cmp arr a b swaps
  let r2 := order2 cmp arr r1.2.1 c r1.2.2
  let r3 := order2 cmp arr r1.1 r2.1 r2.2.2
  (r3.2.1, r3.2.2)

/-- `medianAdjacentCmpFunc`: median of `data[i-1]`, `data[i]`, `data[i+1]`. -/
def medianAdjacent (cmp : α → α → Int) (arr : Array α) (i swaps : Nat) : Nat × Nat :=
  median cmp arr (i - 1) i (i + 1) swaps

/-- Map the final swap count to a hint (`maxSwaps = 12`). -/
def hintOf (swaps : Nat) : Hint :=
  if swaps = 0 then .increasing else if swaps = 12 then .decreasing else .unknown

/-- `choosePivotCmpFunc(data, a, b, cmp)` (`shortestNinther = 50`). -/
def choosePivot (cmp : α → α → Int) (arr : Array α) (a b : Nat) : Nat × Hint :=
  let l := b - a
  let i := a + l / 4 * 1
  let j := a + l / 4 * 2
  let k := a + l / 4 * 3
  if 8 ≤ l then
    if 50 ≤ l then
      let r1 := medianAdjacent cmp arr i 0
      let r2 := medianAdjacent cmp arr j r1.2
      let r3 := medianAdjacent cmp arr k r2.2
      let r4 := median cmp arr r1.1 r2.1 r3.1 r3.2
      (r4.1, hintOf r4.2)
    else
      let r4 := median cmp arr i j k 0
      (r4.1, hintOf r4.2)
  else (j, hintOf 0)

/-- Scan of `partitionCmpFunc`: `for i <= j && cmp(data[i], data[a]) < 0 { i++ }`. -/
def scanLt (cmp : α → α → Int) (arr : Array α) (a j : Nat) : Nat → Nat → Nat
  | i, 0 => i
  | i, fuel + 1 =>
    if i ≤ j ∧ cmp (idx arr i) (idx arr a) < 0 then scanLt cmp arr a j (i + 1) fuel else i

/-- Scan of `partitionCmpFunc`: `for i <= j && !(cmp(data[j], data[a]) < 0) { j-- }`. -/
def scanGe (cmp : α → α → Int) (arr : Array α) (a i : Nat) : Nat → Nat → Nat
  | j, 0 => j
  | j, fuel + 1 =>
    if i ≤ j ∧ ¬ cmp (idx arr j) (idx arr a) < 0 then scanGe cmp arr a i (j - 1) fuel else j

/-- The main loop of `partitionCmpFunc` after the first scans and swap. -/
def partitionLoop (cmp : α → α → Int) (a b : Nat) : Array α → Nat → Nat → Nat → Array α × Nat
  | arr, _, j, 0 => (arr, j)
  | arr, i, j, fuel + 1 =>
    let i1 := scanLt cmp arr a j i b
    let j1 := scanGe cmp arr a i1 j b
    if i1 > j1 then (arr, j1)
    else partitionLoop cmp a b (aswap arr i1 j1) (i1 + 1) (j1 - 1) fuel

/-- `partitionCmpFunc(data, a, b, pivot, cmp)`: returns the array, the new pivot
position, and `alreadyPartitioned`. -/
def goPartition (cmp : α → α → Int) (arr0 : Array α) (a b pivot : Nat) :
    Array α × Nat × Bool :=
  let arr := aswap arr0 a pivot
  let i := scanLt cmp arr a (b - 1) (a + 1) b
  let j := scanGe cmp arr a i (b - 1) b
  if i > j then (aswap arr j a, j, true)
  else
    let res := partitionLoop cmp a b (aswap arr i j) (i + 1) (j - 1) b
    (aswap res.1 res.2 a, res.2, false)

/-- Scan of `partitionEqualCmpFunc`: `for i <= j && !(cmp(data[a], data[i]) < 0) { i++ }`. -/
def scanLe (cmp : α → α → Int) (arr : Array α) (a j : Nat) : Nat → Nat → Nat
  | i, 0 => i
  | i, fuel + 1 =>
    if i ≤ j ∧ ¬ cmp (idx arr a) (idx arr i) < 0 then scanLe cmp arr a j (i + 1) fuel else i

/-- Scan of `partitionEqualCmpFunc`: `for i <= j && cmp(data[a], data[j]) < 0 { j-- }`. -/
def scanGt (cmp : α → α → Int) (arr : Array α) (a i : Nat) : Nat → Nat → Nat
  | j, 0 => j
  | j, fuel + 1 =>
    if i ≤ j ∧ cmp (idx arr a) (idx arr j) < 0 then scanGt cmp arr a i (j - 1) fuel else j

/-- The loop of `partitionEqualCmpFunc`; returns the array and the final `i`. -/
def peqLoop (cmp : α → α → Int) (a b : Nat) : Array α → Nat → Nat → Nat → Array α × Nat
  | arr, i, _, 0 => (arr, i)
  | arr, i, j, fuel + 1 =>
    let i1 := scanLe cmp arr a j i b
    let j1 := scanGt cmp arr a i1 j b
    if i1 > j1 then (arr, i1)
    else peqLoop cmp a b (aswap arr i1 j1) (i1 + 1) (j1 - 1) fuel

/-- `partitionEqualCmpFunc(data, a, b, pivot, cmp)`. -/
def goPartitionEqual (cmp : α → α → Int) (arr0 : Array α) (a b pivot : Nat) :
    Array α × Nat :=
  peqLoop cmp a b (aswap arr0 a pivot) (a + 1) (b - 1) b

/-- The advancing scan of `partialInsertionSortCmpFunc`:
`for i < b && !(cmp(data[i], data[i-1]) < 0) { i++ }`. -/
def advanceSorted (cmp : α → α → Int) (arr : Array α) (b : Nat) : Nat → Nat → Nat
  | i, 0 => i
  | i, fuel + 1 =>
    if i < b ∧ ¬ cmp (idx arr i) (idx arr (i - 1)) < 0 then advanceSorted cmp arr b (i + 1) fuel
    else i

/-- The left shift of `partialInsertionSortCmpFunc`: `for j := i-1; j >= 1; j--`. -/
def shiftLeftLoop (cmp : α → α → Int) : Array α → Nat → Array α
  | arr, 0 => arr
  | arr, j + 1 =>
    if cmp (idx arr (j + 1)) (idx arr j) < 0 then shiftLeftLoop cmp (aswap arr (j + 1) j) j
    else arr

/-- The right shift of `partialInsertionSortCmpFunc`: `for j := i+1; j < b; j++`. -/
def shiftRightLoop (cmp : α → α → Int) (b : Nat) : Array α → Nat → Nat → Array α
  | arr, _, 0 => arr
  | arr, j, fuel + 1 =>
    if j < b then
      if cmp (idx arr j) (idx arr (j - 1)) < 0 then
        shiftRightLoop cmp b (aswap arr j (j - 1)) (j + 1) fuel
      else arr
    else arr

/-- The outer loop of `partialInsertionSortCmpFunc` (`maxSteps = 5` steps of
fuel, `shortestShifting = 50`); returns the array and whether the range ended
up sorted. -/
def pInsertionSortLoop (cmp : α → α → Int) (a b : Nat) : Array α → Nat → Nat → Array α × Bool
  | arr, _, 0 => (arr, false)
  | arr, i, steps + 1 =>
    let i1 := advanceSorted cmp arr b i b
    if i1 = b then (arr, true)
    else if b - a < 50 then (arr, false)
    else
      let arr1 := aswap arr i1 (i1 - 1)
      let arr2 := if 2 ≤ i1 - a then shiftLeftLoop cmp arr1 (i1 - 1) else arr1
      let arr3 := if 2 ≤ b - i1 then shiftRightLoop cmp b arr2 (i1 + 1) b else arr2
      pInsertionSortLoop cmp a b arr3 i1 steps

/-- `partialInsertionSortCmpFunc(data, a, b, cmp)`. -/
def goPInsertionSort (cmp : α → α → Int) (arr : Array α) (a b : Nat) : Array α × Bool :=
  pInsertionSortLoop cmp a b arr (a + 1) 5

/-- `bits.Len` on `Nat`. -/
def bitsLen (n : Nat) : Nat := if n = 0 then 0 else Nat.log2 n + 1

/-- One step of the `xorshift` generator used by `breakPatternsCmpFunc`
(64-bit state, shifts 13 left, 17 right, 5 left). -/
def xorshiftNext (r : Nat) : Nat :=
  let r1 := (r ^^^ (r <<< 13)) % 2 ^ 64
  let r2 := r1 ^^^ (r1 >>> 17)
  (r2 ^^^ (r2 <<< 5)) % 2 ^ 64

/-- The three swaps of `breakPatternsCmpFunc`; `other = random.Next() & (modulus-1)`
is the remainder by the power of two `modulus`. -/
def bpLoop (modulus length a : Nat) : Array α → Nat → Nat → Nat → Array α
  | arr, _, _, 0 => arr
  | arr, r, pos, n + 1 =>
    let r1 := xorshiftNext r
    let other0 := r1 % modulus
    let other := if other0 ≥ length then other0 - length else other0
    bpLoop modulus length a (aswap arr pos (a + other)) r1 (pos + 1) n

/-- `breakPatternsCmpFunc(data, a, b, cmp)`: scatter three middle elements to
pseudo-random positions (only when the range has at least 8 elements). -/
def goBreakPatterns (arr : Array α) (a b : Nat) : Array α :=
  let length := b - a
  if 8 ≤ length then
    bpLoop (2 ^ bitsLen length) length a arr length (a + length / 4 * 2 - 1) 3
  else arr

/-- `pdqsortCmpFunc(data, a, b, limit, cmp)` (`maxInsertion = 12`): the
arguments after the fuel are the array, `a`, `b`, `limit`, `wasBalanced` and
`wasPartitioned`; recursive calls re-enter with both flags `true`, and the
`continue` of Go's loop is a tail call with the updated flags.  Each loop
iteration shrinks `b - a`, so fuel `b - a + 1` is never exhausted. -/
def pdqsort (cmp : α → α → Int) : Nat → Array α → Nat → Nat → Nat → Bool → Bool → Array α
  | 0, arr, _, _, _, _, _ => arr
  | fuel + 1, arr, a, b, limit, wasBalanced, wasPartitioned =>
    let length := b - a
    if length ≤ 12 then goInsertionSort cmp arr a b
    else if limit = 0 then goHeapSort cmp arr a b
    else
      let arr0 := if ¬ wasBalanced then goBreakPatterns arr a b else arr
      let limit0 := if ¬ wasBalanced then limit - 1 else limit
      let pv := choosePivot cmp arr0 a b
      let arr1 := if pv.2 = .decreasing then goReverseRange arr0 a b else arr0
      let pivot := if pv.2 = .decreasing then (b - 1) - (pv.1 - a) else pv.1
      let hint := if pv.2 = .decreasing then Hint.increasing else pv.2
      let psort :=
        if wasBalanced ∧ wasPartitioned ∧ hint = .increasing then goPInsertionSort cmp arr1 a b
        else (arr1, false)
      if psort.2 then psort.1
      else
        let arr2 := psort.1
        if 0 < a ∧ ¬ cmp (idx arr2 (a - 1)) (idx arr2 pivot) < 0 then
          let pe := goPartitionEqual cmp arr2 a b pivot
          pdqsort cmp fuel pe.1 pe.2 b limit0 wasBalanced wasPartitioned
        else
          let pr := goPartition cmp arr2 a b pivot
          let mid := pr.2.1
          let wasBalanced1 := decide (length / 8 ≤ min (mid - a) (b - mid))
          if mid - a < b - mid then
            pdqsort cmp fuel (pdqsort cmp fuel pr.1 a mid limit0 true true)
              (mid + 1) b limit0 wasBalanced1 pr.2.2
          else
            pdqsort cmp fuel (pdqsort cmp fuel pr.1 (mid + 1) b limit0 true true)
              a mid limit0 wasBalanced1 pr.2.2

/-- `slices.SortFunc(x, cmp)`: `pdqsortCmpFunc(x, 0, n, bits.Len(uint(n)), cmp)`. -/
def goSortFunc (cmp : α → α → Int) (arr : Array α) : Array α :=
  pdqsort cmp (arr.size + 1) arr 0 arr.size (bitsLen arr.size) true true

end GoSort

/-! ### The three sort options -/

/-- Lexicographic three-way comparison on characters (the `strings.Compare`
order: UTF-8 byte order coincides with code point order). -/
def cmpCharList : List Char → List Char → Int
  | [], [] => 0
  | [], _ :: _ => -1
  | _ :: _, [] => 1
  | a :: as, b :: bs => if a < b then -1 else if b < a then 1 else cmpCharList as bs

/-- Lexicographic three-way comparison on byte lists (for
`strings.Compare(string(a.Value), string(b.Value))`). -/
def cmpNatList : List Nat → List Nat → Int
  | [], [] => 0
  | [], _ :: _ => -1
  | _ :: _, [] => 1
  | a :: as, b :: bs => if a < b then -1 else if b < a then 1 else cmpNatList as bs

/-- The comparator of `SortByExpiry`: `-1`/`1`/`0` by `Before`/`After`/ties. -/
def cmpExpiry (a b : Data) : Int :=
  if a.Expiry < b.Expiry then -1 else if b.Expiry < a.Expiry then 1 else 0

/-- The comparator of `SortByKey`: `strings.Compare(a.Key, b.Key)`. -/
def cmpKey (a b : Data) : Int := cmpCharList a.Key.data b.Key.data

/-- The comparator of `SortByValue`. -/
def cmpValue (a b : Data) : Int := cmpNatList a.Value b.Value

/-- `SortByExpiry(entries)`. -/
def SortByExpiry (entries : List Data) : List Data :=
  (goSortFunc cmpExpiry entries.toArray).toList

/-- `SortByKey(entries)`. -/
def SortByKey (entries : List Data) : List Data :=
  (goSortFunc cmpKey entries.toArray).toList

/-- `SortByValue(entries)`. -/
def SortByValue (entries : List Data) : List Data :=
  (goSortFunc cmpValue entries.toArray).toList

/-! ### Concrete fixtures used by witnesses and counterexamples -/

/-- A directory holding one file planted at the hash of the empty key. -/
def emptyKeyDir : Dir := [(Filename "", .json ⟨100, "", [7]⟩)]

/-- A one-entry fixture record for key `"k"`. -/
def dK : Data := ⟨10, "k", [2]⟩

/-- A directory holding only `dK` under its hashed filename (the literal is
`Filename "k"`; well-formedness is certified by `decide` where needed). -/
def dirK : Dir :=
  [("8254c329a92850f6d539dd376f4816ee2764517da5e0235514af433164480d7a.json", .json dK)]

/-- A three-entry directory: two unexpired records (`"a"`, `"c"`) and one
expired record (`"b"`) relative to `now = 5`, under their hashed filenames. -/
def dirABC : Dir :=
  [("ca978112ca1bbdcafac231b39a23dc4da786eff8147c4e72b9807785afee48bb.json",
      .json ⟨10, "a", [1]⟩),
   ("3e23e8160039594a33894f6564e1b1348bbd7a0088d42c4acb73eeaed59c009d.json",
      .json ⟨1, "b", [2]⟩),
   ("2e7d2c03a9507ae265ecf5b5356885a53393a2029d241394997265a1a25aefc6.json",
      .json ⟨20, "c", [3]⟩)]

/-- A 13-entry list with three entries of equal expiry `5`, distinguished by
their keys; long enough that `slices.SortFunc` leaves its (stable) insertion
sort regime. -/
def c3Input : List Data :=
  [⟨5, "x1", []⟩, ⟨5, "x2", []⟩, ⟨0, "a", []⟩, ⟨1, "b", []⟩, ⟨2, "c", []⟩, ⟨3, "d", []⟩,
   ⟨4, "e", []⟩, ⟨5, "x3", []⟩, ⟨6, "f", []⟩, ⟨7, "g", []⟩, ⟨8, "h", []⟩, ⟨9, "i", []⟩,
   ⟨10, "j", []⟩]

/-! ### Auxiliary predicates for stating the claims -/

/-- The non-strict order a Go comparator induces: `x` may precede `y` when the
comparator does not place `y` strictly before `x`. -/
def cmpLE {α : Type} (cmp : α → α → Int) (x y : α) : Prop := ¬ cmp y x < 0

/-- A range `[a, b)` of an array is sorted for the comparator. -/
def SortedRange {α : Type} [Inhabited α] (cmp : α → α → Int) (arr : Array α) (a b : Nat) :
    Prop :=
  ∀ p q : Nat, a ≤ p → p < q → q < b → cmpLE cmp (idx arr p) (idx arr q)

/-- A comparator that induces a total preorder, as `slices.SortFunc` requires
(`cmp` must be "a strict weak ordering"); `cmpExpiry`, `cmpKey` and
`cmpValue` all satisfy it. -/
structure CmpOK {α : Type} (cmp : α → α → Int) : Prop where
  asym : ∀ x y, cmp x y < 0 → ¬ cmp y x < 0
  le_trans : ∀ x y z, cmpLE cmp x y → cmpLE cmp y z → cmpLE cmp x z
  lt_le : ∀ x y z, cmp x y < 0 → cmpLE cmp y z → cmp x z < 0
  le_lt : ∀ x y z, cmpLE cmp x y → cmp y z < 0 → cmp x z < 0

/-- The left-context invariant of pdqsort's recursion: every element before
the working range is `≤` every element inside it.  (It holds vacuously at the
top-level call, where `a = 0`.) -/
def Ctx {α : Type} [Inhabited α] (cmp : α → α → Int) (arr : Array α) (a b : Nat) : Prop :=
  ∀ p q : Nat, p < a → a ≤ q → q < b → cmpLE cmp (idx arr p) (idx arr q)

/-- `arr'` is `arr` rearranged inside `[a, b)`: same size, untouched outside,
and every value now inside the range was already a value inside the range. -/
def Rearranges {α : Type} [Inhabited α] (arr' arr : Array α) (a b : Nat) : Prop :=
  arr'.size = arr.size ∧
  (∀ q, q < a ∨ b ≤ q → idx arr' q = idx arr q) ∧
  (∀ q, a ≤ q → q < b → ∃ q', a ≤ q' ∧ q' < b ∧ idx arr' q = idx arr q')

/-- The heap property at one node of the implicit tree over
`arr[first], …, arr[first + hi - 1]`: both children (when present) are `≤`
the node. -/
def LocalHeap {α : Type} [Inhabited α] (cmp : α → α → Int) (arr : Array α)
    (first hi k : Nat) : Prop :=
  (2 * k + 1 < hi → cmpLE cmp (idx arr (first + (2 * k + 1))) (idx arr (first + k))) ∧
  (2 * k + 2 < hi → cmpLE cmp (idx arr (first + (2 * k + 2))) (idx arr (first + k)))

/-- A directory entry is canonical: its content is a valid record stored under
the hash-derived filename of its own key (which is how `Set` creates every
file). -/
def entryOK : String × FileContent → Prop
  | (n, .json d) => n = Filename d.Key
  | (_, .corrupt) => False

instance : DecidablePred entryOK := fun p =>
  match p with
  | (n, .json d) => inferInstanceAs (Decidable (n = Filename d.Key))
  | (_, .corrupt) => inferInstanceAs (Decidable False)

/-- A well-formed directory: distinct filenames (true of every real directory)
and canonical entries (true of every directory produced by `Set`). -/
def WF (dir : Dir) : Prop :=
  (dir.map (·.1)).Nodup ∧ ∀ p ∈ dir, entryOK p

instance : DecidablePred WF := fun _dir =>
  inferInstanceAs (Decidable (_ ∧ _))

/-- The parsed records of a directory's files, in directory order. -/
def datasOf (sub : List (String × FileContent)) : List Data :=
  sub.filterMap (fun p => match p.2 with | .json d => some d | .corrupt => none)

/-- Whether `Clean` keeps a file: its record's expiry is still in the future.
(The `corrupt` branch is arbitrary; a well-formed directory never hits it.) -/
def uncleaned (now : Int) (p : String × FileContent) : Bool :=
  match p.2 with
  | .json d => now < d.Expiry
  | .corrupt => true

/-! ## Lemmas about the directory model -/

/-- Writing a file and looking it up by the same name yields the new content. -/
theorem lookup_osWriteFile_self (dir : Dir) (name : String) (c : FileContent) :
    lookupFile (osWriteFile dir name c) name = some c := by
  induction dir with
  | nil => simp [osWriteFile, lookupFile]
  | cons p rest ih =>
    obtain ⟨n, fc⟩ := p
    by_cases h1 : name = n
    · simp [osWriteFile, h1, lookupFile]
    · by_cases h2 : name < n
      · simp [osWriteFile, h1, h2, lookupFile]
      · simp [osWriteFile, h1, h2, lookupFile, ih]

/-- Removing a file that does not exist fails with the removal error. -/
theorem osRemove_of_lookup_none {dir : Dir} {name : String}
    (h : lookupFile dir name = none) : osRemove dir name = .error .removeError := by
  induction dir with
  | nil => rfl
  | cons p rest ih =>
    obtain ⟨n, fc⟩ := p
    by_cases h1 : name = n
    · simp [lookupFile, h1] at h
    · simp [lookupFile, h1] at h
      simp [osRemove, h1, ih h, Except.map]

/-- A non-empty string has non-zero length. -/
theorem length_ne_zero_of_ne_empty {key : String} (h : key ≠ "") : key.length ≠ 0 := by
  intro hlen
  apply h
  cases key with
  | mk data =>
    cases data with
    | nil => rfl
    | cons c cs => simp [String.length] at hlen

/-! ## The claims -/

/-- Claim C1: for every non-empty key `k`, value `v` and positive duration `d`,
`Set(k, v, d)` succeeds and an immediate `Get(k)` (at the same `now`) returns
`v` with no error. -/
theorem claim1_set_then_get (dir : Dir) (now : Int) (key : String) (value : List Nat)
    (duration : Int) (hkey : key ≠ "") (hdur : 0 < duration) :
    ∃ dir', Set dir now key value duration = .ok dir' ∧ Get dir' now key = .ok value := by
  have hlen : ¬ key.length = 0 := length_ne_zero_of_ne_empty hkey
  refine ⟨osWriteFile dir (Filename key) (.json ⟨now + duration, key, value⟩), ?_, ?_⟩
  · simp [Set, hlen]
  · have hnotafter : ¬ now > now + duration := by omega
    simp [Get, Read, readFile, lookup_osWriteFile_self, hnotafter]

/-- Witness for C1 at `key = "k"`, `value = [1]`, `duration = 5`. -/
theorem claim1_witness : ("k" : String) ≠ "" ∧ (0 : Int) < 5 ∧
    ∃ dir', Set [] 0 "k" [1] 5 = .ok dir' ∧ Get dir' 0 "k" = .ok [1] :=
  ⟨by decide, by decide, claim1_set_then_get [] 0 "k" [1] 5 (by decide) (by decide)⟩

/-- Claim C2 is false as stated: `Get("")` and `Remove("")` perform no key
validation, so on a directory holding a file at the empty key's hashed
filename both succeed instead of failing. -/
theorem claim2_counterexample :
    Get emptyKeyDir 0 "" = .ok [7] ∧ Remove emptyKeyDir "" = .ok [] := by
  constructor <;> decide

/-- Claim C2 amended: `Set("", v, d)` fails with the empty-key error for every
value and duration; `Get("")` and `Remove("")` perform no key validation and
treat the empty key like any other key — when no file exists at the empty
key's hashed filename they fail with a read (not-found) respectively removal
error, not a key-validation error (and when such a file exists they can
succeed, as the counterexample shows). -/
theorem claim2_amended (dir : Dir) (now : Int) (v : List Nat) (d : Int) :
    Set dir now "" v d = .error .keyEmpty ∧
    (lookupFile dir (Filename "") = none →
      Get dir now "" = .error .readError ∧ Remove dir "" = .error .removeError) := by
  refine ⟨by simp [Set], fun h => ⟨?_, ?_⟩⟩
  · simp [Get, Read, readFile, h]
  · exact osRemove_of_lookup_none h

/-- Witness for C2's amended claim on the empty directory. -/
theorem claim2_witness :
    lookupFile [] (Filename "") = none ∧ Set [] 0 "" [1] 5 = .error .keyEmpty ∧
    Get [] 0 "" = .error .readError ∧ Remove [] "" = .error .removeError :=
  ⟨rfl, (claim2_amended [] 0 [1] 5).1, (claim2_amended [] 0 [1] 5).2 rfl⟩

/-- Claim C4: when the stored entry can be read and parsed, `Get` fails with
the expiry error exactly when `now` is strictly after the stored expiry, and
otherwise returns the stored value bytes.  (`Get` performs no writes at all:
its type returns no directory, so the entry's file is left on disk in every
case.) -/
theorem claim4_get_expiry (dir : Dir) (now : Int) (key : String) (d : Data)
    (hread : Read dir key = .ok d) :
    (Get dir now key = .error .expired ↔ d.Expiry < now) ∧
    (¬ d.Expiry < now → Get dir now key = .ok d.Value) := by
  constructor
  · constructor
    · intro h
      by_contra hc
      simp [Get, hread, hc] at h
    · intro h
      simp [Get, hread, h]
  · intro h
    simp [Get, hread, h]

/-- Witness for C4 on the one-entry fixture, on both sides of the expiry. -/
theorem claim4_witness :
    Read dirK "k" = .ok dK ∧
    ((Get dirK 11 "k" = .error .expired ↔ dK.Expiry < 11) ∧
      (¬ dK.Expiry < 11 → Get dirK 11 "k" = .ok dK.Value)) ∧
    ((Get dirK 9 "k" = .error .expired ↔ dK.Expiry < 9) ∧
      (¬ dK.Expiry < 9 → Get dirK 9 "k" = .ok dK.Value)) :=
  ⟨by decide, claim4_get_expiry dirK 11 "k" dK (by decide),
    claim4_get_expiry dirK 9 "k" dK (by decide)⟩

/-- Claim C7: `Expiry` never fails — it is total, returning the zero timestamp
whenever `Read` fails — and `IsExpired` is true exactly when `now` is after
the value `Expiry` returns; since the real `time.Now()` is strictly after the
zero time (`0 < now`), a zero timestamp always counts as expired. -/
theorem claim7_expiry_isexpired (dir : Dir) (key : String) (now : Int) (hnow : 0 < now) :
    (∀ e, Read dir key = .error e → Expiry dir key = 0) ∧
    (IsExpired dir now key = true ↔ Expiry dir key < now) ∧
    (Expiry dir key = 0 → IsExpired dir now key = true) := by
  refine ⟨fun e he => by simp [Expiry, he], by simp [IsExpired], fun h => ?_⟩
  simp [IsExpired, h]
  omega

/-- Witness for C7 on the empty directory (where `Read` fails). -/
theorem claim7_witness : (0 : Int) < 1 ∧
    ((∀ e, Read [] "k" = .error e → Expiry [] "k" = 0) ∧
      (IsExpired [] 1 "k" = true ↔ Expiry [] "k" < 1) ∧
      (Expiry [] "k" = 0 → IsExpired [] 1 "k" = true)) :=
  ⟨by decide, claim7_expiry_isexpired [] "k" 1 (by decide)⟩

/-- Claim C8: after a successful `Set(k, v, d)`, `Read(k)` returns a record
whose `Key` field is the original key `k` — the human-readable key round-trips
through serialization alongside the hash-derived filename. -/
theorem claim8_key_roundtrip (dir : Dir) (now : Int) (key : String) (value : List Nat)
    (duration : Int) (hkey : key ≠ "") :
    ∃ dir' d, Set dir now key value duration = .ok dir' ∧
      Read dir' key = .ok d ∧ d.Key = key := by
  have hlen : ¬ key.length = 0 := length_ne_zero_of_ne_empty hkey
  exact ⟨osWriteFile dir (Filename key) (.json ⟨now + duration, key, value⟩),
    ⟨now + duration, key, value⟩, by simp [Set, hlen],
    by simp [Read, readFile, lookup_osWriteFile_self], rfl⟩

/-- Witness for C8 at `key = "k"`. -/
theorem claim8_witness : ("k" : String) ≠ "" ∧
    ∃ dir' d, Set [] 0 "k" [3] 7 = .ok dir' ∧ Read dir' "k" = .ok d ∧ d.Key = "k" :=
  ⟨by decide, claim8_key_roundtrip [] 0 "k" [3] 7 (by decide)⟩

/-- Flushing a directory over its own name listing removes everything and
collects no errors. -/
theorem flushLoop_self (dir : Dir) : flushLoop dir (dir.map (·.1)) = ([], []) := by
  induction dir with
  | nil => rfl
  | cons p rest ih =>
    obtain ⟨n, c⟩ := p
    simpa [flushLoop, osRemove] using ih

/-- The flush loop processes a second batch of names exactly the same whether
or not the first batch produced errors, and joins the two error lists. -/
theorem flushLoop_append (dir : Dir) (ns1 ns2 : List String) :
    flushLoop dir (ns1 ++ ns2) =
      ((flushLoop (flushLoop dir ns1).1 ns2).1,
        (flushLoop dir ns1).2 ++ (flushLoop (flushLoop dir ns1).1 ns2).2) := by
  induction ns1 generalizing dir with
  | nil => simp [flushLoop]
  | cons name rest ih =>
    cases h : osRemove dir name with
    | error e => simp [flushLoop, h, ih dir]
    | ok dir' => simp [flushLoop, h, ih dir']

/-- Claim C6: `Flush` deletes every file in the directory and returns no error
(in particular, no error when the directory was already empty); and its loop
does not stop at a failed deletion — errors from a first batch of names are
joined in front of the errors of the remaining names, which are still
processed, and a name whose file is missing contributes exactly one removal
error while the rest of the names are still handled. -/
theorem claim6_flush :
    (∀ dir : Dir, Flush dir = ([], [])) ∧
    (∀ (dir : Dir) (ns1 ns2 : List String),
      flushLoop dir (ns1 ++ ns2) =
        ((flushLoop (flushLoop dir ns1).1 ns2).1,
          (flushLoop dir ns1).2 ++ (flushLoop (flushLoop dir ns1).1 ns2).2)) ∧
    (∀ (dir : Dir) (name : String) (ns : List String), lookupFile dir name = none →
      flushLoop dir (name :: ns) = ((flushLoop dir ns).1, .removeError :: (flushLoop dir ns).2)) := by
  refine ⟨fun dir => flushLoop_self dir, flushLoop_append, fun dir name ns h => ?_⟩
  simp [flushLoop, osRemove_of_lookup_none h]

/-- Witness for C6's missing-file conjunct on the empty directory. -/
theorem claim6_witness :
    lookupFile [] "a" = none ∧ flushLoop [] ["a", "b"] = ([], [.removeError, .removeError]) := by
  refine ⟨rfl, ?_⟩
  rw [claim6_flush.2.2 [] "a" ["b"] rfl]
  decide

/-- Looking up a name present in a directory with distinct names finds exactly
its content. -/
theorem lookup_of_mem {dir : Dir} {n : String} {c : FileContent}
    (hnd : (dir.map (·.1)).Nodup) (hmem : (n, c) ∈ dir) :
    lookupFile dir n = some c := by
  induction dir with
  | nil => simp at hmem
  | cons p rest ih =>
    obtain ⟨n0, c0⟩ := p
    simp only [List.map_cons, List.nodup_cons] at hnd
    rcases List.mem_cons.mp hmem with h | h
    · obtain ⟨h1, h2⟩ := Prod.mk.injEq .. ▸ h
      simp [lookupFile, h1.symm, h2]
    · have hne : n ≠ n0 := by
        intro he
        exact hnd.1 (he ▸ List.mem_map_of_mem (·.1) h)
      simp [lookupFile, hne, ih hnd.2 h]

/-- Under canonical contents, the listing loop parses every entry in order. -/
theorem listLoop_ok {dir : Dir} (sub : List (String × FileContent))
    (h : ∀ p ∈ sub, (∃ d, p.2 = .json d) ∧ lookupFile dir p.1 = some p.2) :
    listLoop dir sub = .ok (datasOf sub) := by
  induction sub with
  | nil => rfl
  | cons p rest ih =>
    obtain ⟨n, c⟩ := p
    obtain ⟨⟨d, hd⟩, hl⟩ := h (n, c) (List.mem_cons_self _ _)
    subst hd
    simp [listLoop, readFile, hl, ih (fun q hq => h q (List.mem_cons_of_mem _ hq)), datasOf,
      Except.map]

/-- In a well-formed directory, `list` returns every record, in order. -/
theorem list_ok {dir : Dir} (h : WF dir) : list dir = .ok (datasOf dir) := by
  refine listLoop_ok dir (fun p hp => ?_)
  have := h.2 p hp
  obtain ⟨n, c⟩ := p
  cases c with
  | corrupt => exact absurd this (by simp [entryOK])
  | json d => exact ⟨⟨d, rfl⟩, lookup_of_mem h.1 hp⟩

/-- The clean loop ignores a directory entry none of the records point at. -/
theorem cleanLoop_cons_skip {n0 : String} {c0 : FileContent} (dir : Dir) (now : Int)
    (datas : List Data) (h : ∀ d ∈ datas, Filename d.Key ≠ n0) :
    cleanLoop ((n0, c0) :: dir) now datas =
      ((n0, c0) :: (cleanLoop dir now datas).1, (cleanLoop dir now datas).2) := by
  induction datas generalizing dir with
  | nil => rfl
  | cons d rest ih =>
    by_cases hexp : now < d.Expiry
    · simp [cleanLoop, hexp, ih dir (fun x hx => h x (List.mem_cons_of_mem _ hx))]
    · have hne : Filename d.Key ≠ n0 := h d (List.mem_cons_self _ _)
      cases hrem : osRemove dir (Filename d.Key) with
      | error e =>
        simp [cleanLoop, hexp, osRemove, hne, hrem, Except.map,
          ih dir (fun x hx => h x (List.mem_cons_of_mem _ hx))]
      | ok dir' =>
        simp [cleanLoop, hexp, osRemove, hne, hrem, Except.map,
          ih dir' (fun x hx => h x (List.mem_cons_of_mem _ hx))]

/-- On a well-formed directory the clean loop removes exactly the files whose
record's expiry is not in the future, with no errors. -/
theorem cleanLoop_wf {dir : Dir} (now : Int) (h : WF dir) :
    cleanLoop dir now (datasOf dir) = (dir.filter (uncleaned now), []) := by
  induction dir with
  | nil => rfl
  | cons p rest ih =>
    obtain ⟨n0, c0⟩ := p
    have hok := h.2 (n0, c0) (List.mem_cons_self _ _)
    have hnd := h.1
    simp only [List.map_cons, List.nodup_cons] at hnd
    have hwrest : WF rest := ⟨hnd.2, fun q hq => h.2 q (List.mem_cons_of_mem _ hq)⟩
    cases c0 with
    | corrupt => exact absurd hok (by simp [entryOK])
    | json d0 =>
      have hname : n0 = Filename d0.Key := hok
      have hnotin : ∀ d ∈ datasOf rest, Filename d.Key ≠ n0 := by
        intro d hd he
        apply hnd.1
        have : ∃ q ∈ rest, (match q.2 with | .json x => some x | .corrupt => none) = some d :=
          List.mem_filterMap.mp hd
        obtain ⟨q, hq, hqd⟩ := this
        have hq2 : q.2 = .json d := by
          cases hq2 : q.2 <;> rw [hq2] at hqd <;> simp at hqd
          rw [hqd]
        have hq1 : q.1 = Filename d.Key := by
          have := h.2 q (List.mem_cons_of_mem _ hq)
          obtain ⟨q1, q2⟩ := q
          simp only at hq2
          rw [hq2] at this
          exact this
        have hq1n : q.1 = n0 := by rw [hq1, he]
        exact hq1n ▸ List.mem_map_of_mem (·.1) hq
      have hdatas : datasOf ((n0, .json d0) :: rest) = d0 :: datasOf rest := by
        simp [datasOf]
      rw [hdatas]
      by_cases hexp : now < d0.Expiry
      · rw [cleanLoop, if_pos hexp, cleanLoop_cons_skip rest now (datasOf rest) hnotin,
          ih hwrest]
        simp [List.filter, uncleaned, hexp]
      · rw [cleanLoop, if_neg hexp]
        have hrem : osRemove ((n0, .json d0) :: rest) (Filename d0.Key) = .ok rest := by
          simp [osRemove, hname]
        rw [hrem]
        show cleanLoop rest now (datasOf rest) = _
        rw [ih hwrest]
        simp [List.filter, uncleaned, hexp]

/-- On a well-formed directory, `Clean` keeps exactly the files whose expiry
is still in the future, with no errors. -/
theorem Clean_wf {dir : Dir} (now : Int) (h : WF dir) :
    Clean dir now = (dir.filter (uncleaned now), []) := by
  simp only [Clean, list_ok h]
  exact cleanLoop_wf now h

/-- The clean loop processes a second batch of records identically whether or
not the first batch produced errors, joining the error lists. -/
theorem cleanLoop_append (dir : Dir) (now : Int) (l1 l2 : List Data) :
    cleanLoop dir now (l1 ++ l2) =
      ((cleanLoop (cleanLoop dir now l1).1 now l2).1,
        (cleanLoop dir now l1).2 ++ (cleanLoop (cleanLoop dir now l1).1 now l2).2) := by
  induction l1 generalizing dir with
  | nil => simp [cleanLoop]
  | cons d rest ih =>
    by_cases hexp : now < d.Expiry
    · simp [cleanLoop, hexp, ih dir]
    · cases hrem : osRemove dir (Filename d.Key) with
      | error e => simp [cleanLoop, hexp, hrem, ih dir]
      | ok dir' => simp [cleanLoop, hexp, hrem, ih dir']

/-- Claim C5: on a well-formed directory `Clean` deletes exactly the entries
whose expiry is not in the future: afterwards the directory holds precisely
the still-unexpired entries, untouched and in their original order, and no
errors are reported; and the clean loop aggregates per-entry removal errors
instead of aborting — the records after a failed removal are still processed
and all errors are joined. -/
theorem claim5_clean (dir : Dir) (now : Int) (h : WF dir) :
    Clean dir now = (dir.filter (uncleaned now), []) ∧
    (∀ (dir' : Dir) (l1 l2 : List Data),
      cleanLoop dir' now (l1 ++ l2) =
        ((cleanLoop (cleanLoop dir' now l1).1 now l2).1,
          (cleanLoop dir' now l1).2 ++ (cleanLoop (cleanLoop dir' now l1).1 now l2).2)) := by
  exact ⟨Clean_wf now h, fun dir' l1 l2 => cleanLoop_append dir' now l1 l2⟩

/-- Witness for C5: two unexpired entries and one expired entry; `Clean`
leaves exactly the two unexpired ones, with no errors. -/
theorem claim5_witness :
    WF dirABC ∧ Clean dirABC 5 = ([dirABC.get ⟨0, by decide⟩, dirABC.get ⟨2, by decide⟩], []) := by
  have hwf : WF dirABC := by decide
  refine ⟨hwf, ?_⟩
  rw [(claim5_clean dirABC 5 hwf).1]
  decide

/-- Claim C10: at the boundary instant where `now` equals an entry's stored
expiry, `Get` does not treat the entry as expired (its check is strictly
after) and returns the value, while `Clean` deletes the entry's file (it
skips only entries whose expiry is strictly in the future). -/
theorem claim10_boundary (dir : Dir) (now : Int) (key : String) (d : Data)
    (hwf : WF dir) (hmem : (Filename key, .json d) ∈ dir) (hb : d.Expiry = now) :
    Get dir now key = .ok d.Value ∧
    Filename key ∉ ((Clean dir now).1.map (·.1)) := by
  constructor
  · have hread : Read dir key = .ok d := by
      simp [Read, readFile, lookup_of_mem hwf.1 hmem]
    simp [Get, hread, hb]
  · rw [Clean_wf now hwf]
    intro hin
    obtain ⟨p, hp, hp1⟩ := List.mem_map.mp hin
    have hpmem := List.mem_of_mem_filter hp
    have hkeep := List.of_mem_filter hp
    obtain ⟨p1, p2⟩ := p
    simp only at hp1
    subst hp1
    -- distinct names force the kept entry to be the known one
    have h1 := lookup_of_mem hwf.1 hpmem
    have h2 := lookup_of_mem hwf.1 hmem
    rw [h1] at h2
    have hp2 : p2 = .json d := by injection h2
    subst hp2
    simp [uncleaned, hb] at hkeep

/-! ## The sort embedding only permutes the array

Every mutation in the embedded pdqsort goes through `aswap`, so each helper
returns a permutation of its input; these lemmas chain up to
`slices.SortFunc`. -/

/-- Prepending the `m`-th element to a list updated at `m` permutes
prepending the new value to the original list. -/
theorem cons_set_perm {α : Type} : ∀ (t : List α) (m : Nat) (hm : m < t.length) (a : α),
    (t.get ⟨m, hm⟩ :: t.set m a).Perm (a :: t)
  | b :: s, 0, _, a => List.Perm.swap a b s
  | b :: s, m + 1, hm, a => by
    have hm' : m < s.length := by simpa using hm
    have ih := cons_set_perm s m hm' a
    have h1 : ((b :: s).get ⟨m + 1, hm⟩ :: (b :: s).set (m + 1) a)
        = s.get ⟨m, hm'⟩ :: b :: s.set m a := by simp
    rw [h1]
    exact ((List.Perm.swap b (s.get ⟨m, hm'⟩) (s.set m a)).trans (ih.cons b)).trans
      (List.Perm.swap a b s)

/-- Exchanging two positions of a list by a double `set` is a permutation. -/
theorem set_set_perm {α : Type} : ∀ (l : List α) (i j : Nat) (hi : i < l.length)
    (hj : j < l.length),
    ((l.set i (l.get ⟨j, hj⟩)).set j (l.get ⟨i, hi⟩)).Perm l
  | [], i, _, hi, _ => absurd hi (by simp)
  | a :: t, 0, 0, _, _ => by simp
  | a :: t, 0, m + 1, hi, hj => by
    simpa using cons_set_perm t m (by simpa using hj) a
  | a :: t, n + 1, 0, hi, hj => by
    simpa using cons_set_perm t n (by simpa using hi) a
  | a :: t, n + 1, m + 1, hi, hj => by
    simpa using (set_set_perm t n m (by simpa using hi) (by simpa using hj)).cons a

section GoSortPerm

variable {α : Type} [Inhabited α]

/-- `aswap` permutes the array's elements. -/
theorem aswap_perm (arr : Array α) (i j : Nat) :
    ((aswap arr i j).toList).Perm arr.toList := by
  unfold aswap
  split
  · next h =>
    rw [Array.toList_swap]
    have hi : i < arr.toList.length := by simpa using h.1
    have hj : j < arr.toList.length := by simpa using h.2
    exact set_set_perm arr.toList i j hi hj
  · exact .refl _

/-- The insertion-sort inner loop permutes the array. -/
theorem insertInner_perm (cmp : α → α → Int) (a : Nat) :
    ∀ (j : Nat) (arr : Array α), ((insertInner cmp a arr j).toList).Perm arr.toList
  | 0, arr => .refl _
  | j + 1, arr => by
    rw [insertInner]
    split
    · exact (insertInner_perm cmp a j _).trans (aswap_perm arr (j + 1) j)
    · exact .refl _

/-- The insertion-sort outer loop permutes the array. -/
theorem insertionSortLoop_perm (cmp : α → α → Int) (a b : Nat) :
    ∀ (fuel i : Nat) (arr : Array α), ((insertionSortLoop cmp a b arr i fuel).toList).Perm arr.toList
  | 0, _, arr => .refl _
  | fuel + 1, i, arr => by
    rw [insertionSortLoop]
    split
    · exact (insertionSortLoop_perm cmp a b fuel (i + 1) _).trans (insertInner_perm cmp a i arr)
    · exact .refl _

/-- `insertionSortCmpFunc` permutes the array. -/
theorem goInsertionSort_perm (cmp : α → α → Int) (arr : Array α) (a b : Nat) :
    ((goInsertionSort cmp arr a b).toList).Perm arr.toList :=
  insertionSortLoop_perm cmp a b b (a + 1) arr

/-- The sift-down loop permutes the array. -/
theorem siftDownLoop_perm (cmp : α → α → Int) (hi first : Nat) :
    ∀ (fuel root : Nat) (arr : Array α), ((siftDownLoop cmp hi first arr root fuel).toList).Perm arr.toList
  | 0, _, arr => .refl _
  | fuel + 1, root, arr => by
    rw [siftDownLoop]
    split
    · exact .refl _
    · lift_lets
      extract_lets child
      split
      · exact .refl _
      · exact (siftDownLoop_perm cmp hi first fuel child _).trans (aswap_perm arr _ _)

/-- `siftDownCmpFunc` permutes the array. -/
theorem goSiftDown_perm (cmp : α → α → Int) (arr : Array α) (lo hi first : Nat) :
    ((goSiftDown cmp arr lo hi first).toList).Perm arr.toList :=
  siftDownLoop_perm cmp hi first hi lo arr

/-- The heap-building loop permutes the array. -/
theorem heapBuildLoop_perm (cmp : α → α → Int) (hi first : Nat) :
    ∀ (n : Nat) (arr : Array α), ((heapBuildLoop cmp hi first arr n).toList).Perm arr.toList
  | 0, arr => .refl _
  | n + 1, arr => (heapBuildLoop_perm cmp hi first n _).trans (goSiftDown_perm cmp arr n hi first)

/-- The heap-popping loop permutes the array. -/
theorem heapPopLoop_perm (cmp : α → α → Int) (first : Nat) :
    ∀ (n : Nat) (arr : Array α), ((heapPopLoop cmp first arr n).toList).Perm arr.toList
  | 0, arr => .refl _
  | n + 1, arr =>
    (heapPopLoop_perm cmp first n _).trans
      ((goSiftDown_perm cmp _ 0 n first).trans (aswap_perm arr first (first + n)))

/-- `heapSortCmpFunc` permutes the array. -/
theorem goHeapSort_perm (cmp : α → α → Int) (arr : Array α) (a b : Nat) :
    ((goHeapSort cmp arr a b).toList).Perm arr.toList :=
  (heapPopLoop_perm cmp a (b - a) _).trans (heapBuildLoop_perm cmp (b - a) a _ arr)

/-- The range-reversal loop permutes the array. -/
theorem reverseRangeLoop_perm :
    ∀ (fuel i j : Nat) (arr : Array α), ((reverseRangeLoop arr i j fuel).toList).Perm arr.toList
  | 0, _, _, arr => .refl _
  | fuel + 1, i, j, arr => by
    rw [reverseRangeLoop]
    split
    · exact (reverseRangeLoop_perm fuel (i + 1) (j - 1) _).trans (aswap_perm arr i j)
    · exact .refl _

/-- `reverseRangeCmpFunc` permutes the array. -/
theorem goReverseRange_perm (arr : Array α) (a b : Nat) :
    ((goReverseRange arr a b).toList).Perm arr.toList :=
  reverseRangeLoop_perm b a (b - 1) arr

/-- The partition loop permutes the array. -/
theorem partitionLoop_perm (cmp : α → α → Int) (a b : Nat) :
    ∀ (fuel i j : Nat) (arr : Array α), (((partitionLoop cmp a b arr i j fuel).1).toList).Perm arr.toList
  | 0, _, _, arr => .refl _
  | fuel + 1, i, j, arr => by
    rw [partitionLoop]
    split
    · exact .refl _
    · exact (partitionLoop_perm cmp a b fuel _ _ _).trans (aswap_perm arr _ _)

/-- `partitionCmpFunc` permutes the array. -/
theorem goPartition_perm (cmp : α → α → Int) (arr : Array α) (a b pivot : Nat) :
    (((goPartition cmp arr a b pivot).1).toList).Perm arr.toList := by
  rw [goPartition]
  split
  · exact (aswap_perm _ _ a).trans (aswap_perm arr a pivot)
  · exact (aswap_perm _ _ a).trans
      ((partitionLoop_perm cmp a b b _ _ _).trans
        ((aswap_perm _ _ _).trans (aswap_perm arr a pivot)))

/-- The equal-partition loop permutes the array. -/
theorem peqLoop_perm (cmp : α → α → Int) (a b : Nat) :
    ∀ (fuel i j : Nat) (arr : Array α), (((peqLoop cmp a b arr i j fuel).1).toList).Perm arr.toList
  | 0, _, _, arr => .refl _
  | fuel + 1, i, j, arr => by
    rw [peqLoop]
    split
    · exact .refl _
    · exact (peqLoop_perm cmp a b fuel _ _ _).trans (aswap_perm arr _ _)

/-- `partitionEqualCmpFunc` permutes the array. -/
theorem goPartitionEqual_perm (cmp : α → α → Int) (arr : Array α) (a b pivot : Nat) :
    (((goPartitionEqual cmp arr a b pivot).1).toList).Perm arr.toList :=
  (peqLoop_perm cmp a b b (a + 1) (b - 1) _).trans (aswap_perm arr a pivot)

/-- The left-shift loop permutes the array. -/
theorem shiftLeftLoop_perm (cmp : α → α → Int) :
    ∀ (j : Nat) (arr : Array α), ((shiftLeftLoop cmp arr j).toList).Perm arr.toList
  | 0, arr => .refl _
  | j + 1, arr => by
    rw [shiftLeftLoop]
    split
    · exact (shiftLeftLoop_perm cmp j _).trans (aswap_perm arr (j + 1) j)
    · exact .refl _

/-- The right-shift loop permutes the array. -/
theorem shiftRightLoop_perm (cmp : α → α → Int) (b : Nat) :
    ∀ (fuel j : Nat) (arr : Array α), ((shiftRightLoop cmp b arr j fuel).toList).Perm arr.toList
  | 0, _, arr => .refl _
  | fuel + 1, j, arr => by
    rw [shiftRightLoop]
    split
    · split
      · exact (shiftRightLoop_perm cmp b fuel _ _).trans (aswap_perm arr j (j - 1))
      · exact .refl _
    · exact .refl _

/-- The partial-insertion-sort loop permutes the array. -/
theorem pInsertionSortLoop_perm (cmp : α → α → Int) (a b : Nat) :
    ∀ (steps i : Nat) (arr : Array α),
      (((pInsertionSortLoop cmp a b arr i steps).1).toList).Perm arr.toList
  | 0, _, arr => .refl _
  | steps + 1, i, arr => by
    rw [pInsertionSortLoop]
    split
    · exact .refl _
    · split
      · exact .refl _
      · lift_lets
        extract_lets arr1 arr2 arr3
        have h1 : arr1.toList.Perm arr.toList := by
          unfold_let arr1
          exact aswap_perm arr _ _
        have h2 : arr2.toList.Perm arr.toList := by
          unfold_let arr2
          split
          · exact (shiftLeftLoop_perm cmp _ arr1).trans h1
          · exact h1
        have h3 : arr3.toList.Perm arr.toList := by
          unfold_let arr3
          split
          · exact (shiftRightLoop_perm cmp b b _ arr2).trans h2
          · exact h2
        exact (pInsertionSortLoop_perm cmp a b steps _ arr3).trans h3

/-- `partialInsertionSortCmpFunc` permutes the array. -/
theorem goPInsertionSort_perm (cmp : α → α → Int) (arr : Array α) (a b : Nat) :
    (((goPInsertionSort cmp arr a b).1).toList).Perm arr.toList :=
  pInsertionSortLoop_perm cmp a b 5 (a + 1) arr

/-- The pattern-breaking loop permutes the array. -/
theorem bpLoop_perm (modulus length a : Nat) :
    ∀ (n r pos : Nat) (arr : Array α), ((bpLoop modulus length a arr r pos n).toList).Perm arr.toList
  | 0, _, _, arr => .refl _
  | n + 1, r, pos, arr =>
    (bpLoop_perm modulus length a n _ _ _).trans (aswap_perm arr pos _)

/-- `breakPatternsCmpFunc` permutes the array. -/
theorem goBreakPatterns_perm (arr : Array α) (a b : Nat) :
    ((goBreakPatterns arr a b).toList).Perm arr.toList := by
  rw [goBreakPatterns]
  split
  · exact bpLoop_perm _ _ _ 3 _ _ arr
  · exact .refl _

/-- `pdqsortCmpFunc` permutes the array, whatever the fuel. -/
theorem pdqsort_perm (cmp : α → α → Int) :
    ∀ (fuel : Nat) (arr : Array α) (a b limit : Nat) (wb wp : Bool),
      ((pdqsort cmp fuel arr a b limit wb wp).toList).Perm arr.toList
  | 0, arr, _, _, _, _, _ => .refl _
  | fuel + 1, arr, a, b, limit, wb, wp => by
    rw [pdqsort]
    split
    · exact goInsertionSort_perm cmp arr a b
    split
    · exact goHeapSort_perm cmp arr a b
    lift_lets
    extract_lets arr0 limit0 pv arr1 pivot hint psort
    have harr0 : arr0.toList.Perm arr.toList := by
      unfold_let arr0
      split
      · exact goBreakPatterns_perm arr a b
      · exact .refl _
    have harr1 : arr1.toList.Perm arr.toList := by
      unfold_let arr1
      split
      · exact (goReverseRange_perm arr0 a b).trans harr0
      · exact harr0
    have hpsort : psort.1.toList.Perm arr.toList := by
      unfold_let psort
      split
      · exact (goPInsertionSort_perm cmp arr1 a b).trans harr1
      · exact harr1
    split
    · exact hpsort
    extract_lets arr2 pe pr mid wasBalanced1
    have harr2 : arr2.toList.Perm arr.toList := hpsort
    have hpe : pe.1.toList.Perm arr.toList := by
      unfold_let pe
      exact (goPartitionEqual_perm cmp arr2 a b pivot).trans harr2
    have hpr : pr.1.toList.Perm arr.toList := by
      unfold_let pr
      exact (goPartition_perm cmp arr2 a b pivot).trans harr2
    split
    · exact (pdqsort_perm cmp fuel pe.1 pe.2 b limit0 wb wp).trans hpe
    · split
      · exact (pdqsort_perm cmp fuel _ (mid + 1) b limit0 wasBalanced1 pr.2.2).trans
          ((pdqsort_perm cmp fuel pr.1 a mid limit0 true true).trans hpr)
      · exact (pdqsort_perm cmp fuel _ a mid limit0 wasBalanced1 pr.2.2).trans
          ((pdqsort_perm cmp fuel pr.1 (mid + 1) b limit0 true true).trans hpr)

/-- `slices.SortFunc` permutes the array. -/
theorem goSortFunc_perm (cmp : α → α → Int) (arr : Array α) :
    ((goSortFunc cmp arr).toList).Perm arr.toList :=
  pdqsort_perm cmp (arr.size + 1) arr 0 arr.size (bitsLen arr.size) true true

end GoSortPerm

/-- Each of the three sort options permutes its input list. -/
theorem sortOption_perm (o : List Data → List Data)
    (h : o = SortByExpiry ∨ o = SortByKey ∨ o = SortByValue) (l : List Data) :
    (o l).Perm l := by
  have base : ∀ cmp : Data → Data → Int, ((goSortFunc cmp l.toArray).toList).Perm l := by
    intro cmp
    simpa using goSortFunc_perm cmp l.toArray
  rcases h with h | h | h <;> subst h
  · exact base cmpExpiry
  · exact base cmpKey
  · exact base cmpValue

/-- Folding any sequence of the three sort options over a list permutes it. -/
theorem foldl_options_perm (options : List (List Data → List Data))
    (hopts : ∀ o ∈ options, o = SortByExpiry ∨ o = SortByKey ∨ o = SortByValue)
    (l : List Data) : (options.foldl (fun acc o => o acc) l).Perm l := by
  induction options generalizing l with
  | nil => exact .refl _
  | cons o rest ih =>
    simp only [List.foldl_cons]
    exact (ih (fun x hx => hopts x (List.mem_cons_of_mem _ hx)) (o l)).trans
      (sortOption_perm o (hopts o (List.mem_cons_self _ _)) l)

/-- Claim C9: `List` called with any sequence of the provided sort options
returns a permutation of what `List` with no options returns on the same
directory contents — the sort transforms only reorder, never add, remove or
modify entries — and it fails with the same error exactly when the bare
listing fails. -/
theorem claim9_list_perm (dir : Dir) (options : List (List Data → List Data))
    (hopts : ∀ o ∈ options, o = SortByExpiry ∨ o = SortByKey ∨ o = SortByValue) :
    (∀ l, ListEntries dir [] = .ok l →
      ∃ l', ListEntries dir options = .ok l' ∧ l'.Perm l) ∧
    (∀ e, ListEntries dir [] = .error e → ListEntries dir options = .error e) := by
  cases hlist : list dir with
  | error e0 =>
    refine ⟨fun l hl => ?_, fun e he => ?_⟩
    · simp [ListEntries, hlist] at hl
    · simp only [ListEntries, hlist] at he ⊢
      exact he
  | ok l0 =>
    refine ⟨fun l hl => ?_, fun e he => ?_⟩
    · have hl0 : l0 = l := by simpa [ListEntries, hlist] using hl
      subst hl0
      exact ⟨options.foldl (fun acc o => o acc) l0, by simp [ListEntries, hlist],
        foldl_options_perm options hopts l0⟩
    · simp [ListEntries, hlist] at he

/-- Witness for C9 with the expiry and key sorts on the one-entry fixture. -/
theorem claim9_witness :
    (∀ o ∈ [SortByExpiry, SortByKey], o = SortByExpiry ∨ o = SortByKey ∨ o = SortByValue) ∧
    ((∀ l, ListEntries dirK [] = .ok l →
      ∃ l', ListEntries dirK [SortByExpiry, SortByKey] = .ok l' ∧ l'.Perm l) ∧
    (∀ e, ListEntries dirK [] = .error e →
      ListEntries dirK [SortByExpiry, SortByKey] = .error e)) := by
  have hopts : ∀ o ∈ [SortByExpiry, SortByKey],
      o = SortByExpiry ∨ o = SortByKey ∨ o = SortByValue := by
    intro o ho
    rcases List.mem_cons.mp ho with h | h
    · exact Or.inl h
    rcases List.mem_cons.mp h with h' | h'
    · exact Or.inr (Or.inl h')
    · simp at h'
  exact ⟨hopts, claim9_list_perm dirK [SortByExpiry, SortByKey] hopts⟩

/-! ## Sortedness of the insertion-sort regime of `slices.SortFunc`

For at most 12 elements (`maxInsertion`), pdqsort runs a single insertion
sort; these lemmas prove that pass sorts the array for the comparator. -/

section GoSortSorted

variable {α : Type} [Inhabited α]

/-- `aswap` preserves the size. -/
theorem size_aswap (arr : Array α) (u v : Nat) : (aswap arr u v).size = arr.size := by
  unfold aswap
  split
  · simp
  · rfl

/-- `idx` agrees with indexing in range. -/
theorem idx_lt {arr : Array α} {p : Nat} (h : p < arr.size) : idx arr p = arr[p] := by
  simp [idx, Array.getD, h]

/-- How `idx` reads through a swap of in-range positions. -/
theorem idx_aswap {arr : Array α} {u v : Nat} (hu : u < arr.size) (hv : v < arr.size)
    (p : Nat) :
    idx (aswap arr u v) p =
      if p = u then idx arr v else if p = v then idx arr u else idx arr p := by
  unfold aswap
  rw [dif_pos (And.intro hu hv)]
  by_cases hp : p < arr.size
  · have hp' : p < (arr.swap ⟨u, hu⟩ ⟨v, hv⟩).size := by simpa using hp
    rw [idx_lt hp', Array.getElem_swap' arr ⟨u, hu⟩ ⟨v, hv⟩ p hp,
      idx_lt hp, idx_lt hu, idx_lt hv]
    rfl
  · have hpu : p ≠ u := fun h => hp (h ▸ hu)
    have hpv : p ≠ v := fun h => hp (h ▸ hv)
    have hp' : ¬ p < (arr.swap ⟨u, hu⟩ ⟨v, hv⟩).size := by simpa using hp
    simp [idx, Array.getD, hp, hp', hpu, hpv]

/-- The inner insertion loop, entered at position `j` with: sorted below `j`,
sorted above `j`, the cross inequalities, and the inserted element (at `j`)
strictly below everything above it, sorts the whole range `[a, i+1)`. -/
theorem insertInner_invariant (cmp : α → α → Int)
    (hasym : ∀ x y, cmp x y < 0 → ¬ cmp y x < 0)
    (htrans : ∀ x y z, cmpLE cmp x y → cmpLE cmp y z → cmpLE cmp x z)
    (a i : Nat) :
    ∀ (j : Nat) (arr : Array α), j ≤ i → i < arr.size →
      SortedRange cmp arr a j →
      (∀ p q, j + 1 ≤ p → p < q → q ≤ i → cmpLE cmp (idx arr p) (idx arr q)) →
      (∀ p q, a ≤ p → p < j → j + 1 ≤ q → q ≤ i → cmpLE cmp (idx arr p) (idx arr q)) →
      (∀ q, j < q → q ≤ i → cmp (idx arr j) (idx arr q) < 0) →
      SortedRange cmp (insertInner cmp a arr j) a (i + 1) ∧
        (insertInner cmp a arr j).size = arr.size
  | 0, arr, _, _, _, hB, _, hD => by
    rw [insertInner]
    refine ⟨fun p q hap hpq hq => ?_, rfl⟩
    have hqi : q ≤ i := by omega
    by_cases hp0 : p = 0
    · subst hp0
      exact hasym _ _ (hD q (by omega) hqi)
    · exact hB p q (by omega) hpq hqi
  | j + 1, arr, hji, hi, hA, hB, hC, hD => by
    rw [insertInner]
    split
    · next hcond =>
      have hj1 : j + 1 < arr.size := by omega
      have hj0 : j < arr.size := by omega
      have hsw := idx_aswap hj1 hj0
      have hsz : (aswap arr (j + 1) j).size = arr.size := size_aswap arr (j + 1) j
      have hA' : SortedRange cmp (aswap arr (j + 1) j) a j := by
        intro p q hap hpq hqj
        rw [hsw p, hsw q, if_neg (by omega), if_neg (by omega), if_neg (by omega),
          if_neg (by omega)]
        exact hA p q hap hpq (by omega)
      have hB' : ∀ p q, j + 1 ≤ p → p < q → q ≤ i →
          cmpLE cmp (idx (aswap arr (j + 1) j) p) (idx (aswap arr (j + 1) j) q) := by
        intro p q hp hpq hq
        rcases eq_or_lt_of_le hp with hp1 | hp1
        · rw [hsw p, hsw q, if_pos hp1.symm, if_neg (by omega), if_neg (by omega)]
          exact hC j q (by omega) (by omega) (by omega) hq
        · rw [hsw p, hsw q, if_neg (by omega), if_neg (by omega), if_neg (by omega),
            if_neg (by omega)]
          exact hB p q (by omega) hpq hq
      have hC' : ∀ p q, a ≤ p → p < j → j + 1 ≤ q → q ≤ i →
          cmpLE cmp (idx (aswap arr (j + 1) j) p) (idx (aswap arr (j + 1) j) q) := by
        intro p q hap hpj hq hqi
        rw [hsw p, if_neg (by omega), if_neg (by omega)]
        rcases eq_or_lt_of_le hq with hq1 | hq1
        · rw [hsw q, if_pos hq1.symm]
          exact hA p j hap hpj (by omega)
        · rw [hsw q, if_neg (by omega), if_neg (by omega)]
          exact hC p q hap (by omega) (by omega) hqi
      have hD' : ∀ q, j < q → q ≤ i →
          cmp (idx (aswap arr (j + 1) j) j) (idx (aswap arr (j + 1) j) q) < 0 := by
        intro q hjq hqi
        rw [hsw j, if_neg (by omega), if_pos rfl]
        rcases eq_or_lt_of_le (show j + 1 ≤ q by omega) with hq1 | hq1
        · rw [hsw q, if_pos hq1.symm]
          exact hcond.2
        · rw [hsw q, if_neg (by omega), if_neg (by omega)]
          exact hD q (by omega) hqi
      have ih := insertInner_invariant cmp hasym htrans a i j (aswap arr (j + 1) j)
        (by omega) (by omega) hA' hB' hC' hD'
      exact ⟨ih.1, by rw [ih.2, hsz]⟩
    · next hcond =>
      refine ⟨fun p q hap hpq hq => ?_, rfl⟩
      have hqi : q ≤ i := by omega
      by_cases haj : a < j + 1
      · have hstop : ¬ cmp (idx arr (j + 1)) (idx arr j) < 0 := fun h => hcond ⟨haj, h⟩
        rcases lt_trichotomy q (j + 1) with hq1 | hq1 | hq1
        · exact hA p q hap hpq hq1
        · subst hq1
          rcases eq_or_lt_of_le (show p ≤ j by omega) with hpj | hpj
          · subst hpj
            exact hstop
          · exact htrans _ _ _ (hA p j hap hpj (by omega)) hstop
        · rcases lt_trichotomy p (j + 1) with hp1 | hp1 | hp1
          · exact hC p q hap hp1 (by omega) hqi
          · subst hp1
            exact hasym _ _ (hD q (by omega) hqi)
          · exact hB p q (by omega) hpq hqi
      · rcases eq_or_lt_of_le (show j + 1 ≤ p by omega) with hp1 | hp1
        · subst hp1
          exact hasym _ _ (hD q (by omega) hqi)
        · exact hB p q (by omega) hpq hqi

/-- The insertion-sort outer loop extends a sorted prefix to the whole range. -/
theorem insertionSortLoop_sorted (cmp : α → α → Int)
    (hasym : ∀ x y, cmp x y < 0 → ¬ cmp y x < 0)
    (htrans : ∀ x y z, cmpLE cmp x y → cmpLE cmp y z → cmpLE cmp x z) (a b : Nat) :
    ∀ (fuel i : Nat) (arr : Array α), b ≤ arr.size → b - i ≤ fuel →
      SortedRange cmp arr a i →
      SortedRange cmp (insertionSortLoop cmp a b arr i fuel) a b ∧
        (insertionSortLoop cmp a b arr i fuel).size = arr.size
  | 0, i, arr, _, hfuel, hsorted => by
    rw [insertionSortLoop]
    exact ⟨fun p q hap hpq hq => hsorted p q hap hpq (by omega), rfl⟩
  | fuel + 1, i, arr, hb, hfuel, hsorted => by
    rw [insertionSortLoop]
    split
    · next hib =>
      have hi : i < arr.size := by omega
      have hinner := insertInner_invariant cmp hasym htrans a i i arr (le_refl i) hi
        hsorted (fun p q hp hpq hq => (by omega : False).elim)
        (fun p q hap hpj hq hqi => (by omega : False).elim)
        (fun q hq hqi => (by omega : False).elim)
      have hrec := insertionSortLoop_sorted cmp hasym htrans a b fuel (i + 1)
        (insertInner cmp a arr i) (by rw [hinner.2]; exact hb) (by omega) hinner.1
      exact ⟨hrec.1, by rw [hrec.2, hinner.2]⟩
    · next hib =>
      exact ⟨fun p q hap hpq hq => hsorted p q hap hpq (by omega), rfl⟩

/-- `insertionSortCmpFunc` sorts the range `[a, b)`. -/
theorem goInsertionSort_sorted (cmp : α → α → Int)
    (hasym : ∀ x y, cmp x y < 0 → ¬ cmp y x < 0)
    (htrans : ∀ x y z, cmpLE cmp x y → cmpLE cmp y z → cmpLE cmp x z)
    (arr : Array α) (a b : Nat) (hb : b ≤ arr.size) :
    SortedRange cmp (goInsertionSort cmp arr a b) a b ∧
      (goInsertionSort cmp arr a b).size = arr.size :=
  insertionSortLoop_sorted cmp hasym htrans a b b (a + 1) arr hb (by omega)
    (fun p q hap hpq hq => (by omega : False).elim)

end GoSortSorted

section GoSortFull

variable {α : Type} [Inhabited α]

/-- `cmpLE` is reflexive for an admissible comparator. -/
theorem cmpok_le_refl {cmp : α → α → Int} (hok : CmpOK cmp) (x : α) : cmpLE cmp x x :=
  fun h => hok.asym x x h h

/-- A strict comparison implies the non-strict one. -/
theorem cmpok_le_of_lt {cmp : α → α → Int} (hok : CmpOK cmp) {x y : α}
    (h : cmp x y < 0) : cmpLE cmp x y :=
  hok.asym x y h

/-- `Rearranges` is reflexive. -/
theorem rearr_refl (arr : Array α) (a b : Nat) : Rearranges arr arr a b :=
  ⟨rfl, fun _ _ => rfl, fun q h1 h2 => ⟨q, h1, h2, rfl⟩⟩

/-- `Rearranges` composes. -/
theorem rearr_trans {arr3 arr2 arr1 : Array α} {a b : Nat}
    (h32 : Rearranges arr3 arr2 a b) (h21 : Rearranges arr2 arr1 a b) :
    Rearranges arr3 arr1 a b := by
  refine ⟨h32.1.trans h21.1, fun q hq => (h32.2.1 q hq).trans (h21.2.1 q hq), ?_⟩
  intro q h1 h2
  obtain ⟨q', hq1, hq2, hq3⟩ := h32.2.2 q h1 h2
  obtain ⟨q2, hr1, hr2, hr3⟩ := h21.2.2 q' hq1 hq2
  exact ⟨q2, hr1, hr2, hq3.trans hr3⟩

/-- A swap of two in-range positions rearranges within the range. -/
theorem rearr_aswap {arr : Array α} {a b u v : Nat} (hb : b ≤ arr.size)
    (hau : a ≤ u) (hub : u < b) (hav : a ≤ v) (hvb : v < b) :
    Rearranges (aswap arr u v) arr a b := by
  have hu : u < arr.size := by omega
  have hv : v < arr.size := by omega
  refine ⟨size_aswap arr u v, ?_, ?_⟩
  · intro q hq
    rw [idx_aswap hu hv q, if_neg (by omega), if_neg (by omega)]
  · intro q h1 h2
    rw [idx_aswap hu hv q]
    by_cases hqu : q = u
    · rw [if_pos hqu]
      exact ⟨v, hav, hvb, rfl⟩
    · rw [if_neg hqu]
      by_cases hqv : q = v
      · rw [if_pos hqv]
        exact ⟨u, hau, hub, rfl⟩
      · rw [if_neg hqv]
        exact ⟨q, h1, h2, rfl⟩

/-- Rearranging within a subrange rearranges within any containing range. -/
theorem rearr_widen {arr' arr : Array α} {a' b' a b : Nat}
    (h : Rearranges arr' arr a' b') (ha : a ≤ a') (hb : b' ≤ b) :
    Rearranges arr' arr a b := by
  refine ⟨h.1, fun q hq => h.2.1 q (by omega), ?_⟩
  intro q h1 h2
  by_cases hin : a' ≤ q ∧ q < b'
  · obtain ⟨q', hq1, hq2, hq3⟩ := h.2.2 q hin.1 hin.2
    exact ⟨q', by omega, by omega, hq3⟩
  · refine ⟨q, h1, h2, ?_⟩
    exact h.2.1 q (by omega)

/-- The left context transfers through a rearrangement of the range. -/
theorem ctx_rearr {cmp : α → α → Int} {arr' arr : Array α} {a b : Nat}
    (hctx : Ctx cmp arr a b) (h : Rearranges arr' arr a b) : Ctx cmp arr' a b := by
  intro p q hp h1 h2
  obtain ⟨q', hq1, hq2, hq3⟩ := h.2.2 q h1 h2
  rw [h.2.1 p (Or.inl hp), hq3]
  exact hctx p q' hp hq1 hq2

/-- A sorted range extends along consecutive non-descents. -/
theorem sortedRange_extend {cmp : α → α → Int} (hok : CmpOK cmp) {arr : Array α}
    {a i : Nat} (hs : SortedRange cmp arr a i) :
    ∀ (r : Nat), i ≤ r →
      (∀ k, i ≤ k → k < r → cmpLE cmp (idx arr (k - 1)) (idx arr k)) →
      SortedRange cmp arr a r := by
  intro r
  induction r with
  | zero =>
    intro h1 h2 p q hap hpq hq
    exact absurd hq (by omega)
  | succ r ih =>
    intro h1 h2 p q hap hpq hq
    rcases Nat.eq_or_lt_of_le h1 with h1' | h1'
    · exact hs p q hap hpq (by omega)
    · have hsr : SortedRange cmp arr a r :=
        ih (by omega) (fun k hk1 hk2 => h2 k hk1 (by omega))
      rcases Nat.lt_or_ge q r with hqr | hqr
      · exact hsr p q hap hpq hqr
      · have hq' : q = r := by omega
        subst hq'
        have hlast : cmpLE cmp (idx arr (q - 1)) (idx arr q) := h2 q (by omega) (by omega)
        rcases Nat.eq_or_lt_of_le (show p ≤ q - 1 by omega) with hp' | hp'
        · rw [hp']
          exact hlast
        · exact hok.le_trans _ _ _ (hsr p (q - 1) hap (by omega) (by omega)) hlast

/-- What the first scan of `partitionCmpFunc` guarantees: it moves right over
elements `< data[a]` and stops either beyond `j` or at a non-small element. -/
theorem scanLt_spec (cmp : α → α → Int) (arr : Array α) (a j : Nat) :
    ∀ (fuel i : Nat), j + 2 - i ≤ fuel →
      i ≤ scanLt cmp arr a j i fuel ∧
      scanLt cmp arr a j i fuel ≤ max i (j + 1) ∧
      (∀ k, i ≤ k → k < scanLt cmp arr a j i fuel → cmp (idx arr k) (idx arr a) < 0) ∧
      (scanLt cmp arr a j i fuel ≤ j →
        ¬ cmp (idx arr (scanLt cmp arr a j i fuel)) (idx arr a) < 0)
  | 0, i, hfuel => by
    rw [scanLt]
    refine ⟨le_refl i, le_max_left i (j + 1), fun k h1 h2 => absurd h2 (by omega), ?_⟩
    intro hij
    exact absurd hij (by omega)
  | fuel + 1, i, hfuel => by
    rw [scanLt]
    split
    · next hcond =>
      obtain ⟨ih1, ih2, ih3, ih4⟩ := scanLt_spec cmp arr a j fuel (i + 1) (by omega)
      have hij := hcond.1
      refine ⟨by omega, by omega, ?_, ih4⟩
      intro k h1 h2
      rcases Nat.eq_or_lt_of_le h1 with h1' | h1'
      · rw [← h1']
        exact hcond.2
      · exact ih3 k h1' h2
    · next hcond =>
      refine ⟨le_refl i, le_max_left _ _, fun k h1 h2 => absurd h2 (by omega), ?_⟩
      intro hij
      by_cases hlt : cmp (idx arr i) (idx arr a) < 0
      · exact absurd ⟨hij, hlt⟩ hcond
      · exact hlt

/-- What the second scan of `partitionCmpFunc` guarantees: it moves left over
elements `≥ data[a]` and stops either below `i` or at a small element. -/
theorem scanGe_spec (cmp : α → α → Int) (arr : Array α) (a i : Nat) (hi1 : 1 ≤ i) :
    ∀ (fuel j : Nat), j + 2 - i ≤ fuel →
      scanGe cmp arr a i j fuel ≤ j ∧
      min (i - 1) j ≤ scanGe cmp arr a i j fuel ∧
      (∀ k, scanGe cmp arr a i j fuel < k → k ≤ j → ¬ cmp (idx arr k) (idx arr a) < 0) ∧
      (i ≤ scanGe cmp arr a i j fuel →
        cmp (idx arr (scanGe cmp arr a i j fuel)) (idx arr a) < 0)
  | 0, j, hfuel => by
    rw [scanGe]
    refine ⟨le_refl j, min_le_right _ _, fun k h1 h2 => absurd h1 (by omega), ?_⟩
    intro hij
    exact absurd hij (by omega)
  | fuel + 1, j, hfuel => by
    rw [scanGe]
    split
    · next hcond =>
      obtain ⟨ih1, ih2, ih3, ih4⟩ := scanGe_spec cmp arr a i hi1 fuel (j - 1) (by omega)
      have hij := hcond.1
      refine ⟨by omega, by omega, ?_, ih4⟩
      intro k h1 h2
      rcases Nat.eq_or_lt_of_le h2 with h2' | h2'
      · rw [h2']
        exact hcond.2
      · exact ih3 k h1 (by omega)
    · next hcond =>
      refine ⟨le_refl j, min_le_right _ _, fun k h1 h2 => absurd h1 (by omega), ?_⟩
      intro hij
      by_cases hlt : cmp (idx arr j) (idx arr a) < 0
      · exact hlt
      · exact absurd ⟨hij, hlt⟩ hcond

/-- What the first scan of `partitionEqualCmpFunc` guarantees. -/
theorem scanLe_spec (cmp : α → α → Int) (arr : Array α) (a j : Nat) :
    ∀ (fuel i : Nat), j + 2 - i ≤ fuel →
      i ≤ scanLe cmp arr a j i fuel ∧
      scanLe cmp arr a j i fuel ≤ max i (j + 1) ∧
      (∀ k, i ≤ k → k < scanLe cmp arr a j i fuel → ¬ cmp (idx arr a) (idx arr k) < 0) ∧
      (scanLe cmp arr a j i fuel ≤ j →
        cmp (idx arr a) (idx arr (scanLe cmp arr a j i fuel)) < 0)
  | 0, i, hfuel => by
    rw [scanLe]
    refine ⟨le_refl i, le_max_left i (j + 1), fun k h1 h2 => absurd h2 (by omega), ?_⟩
    intro hij
    exact absurd hij (by omega)
  | fuel + 1, i, hfuel => by
    rw [scanLe]
    split
    · next hcond =>
      obtain ⟨ih1, ih2, ih3, ih4⟩ := scanLe_spec cmp arr a j fuel (i + 1) (by omega)
      have hij := hcond.1
      refine ⟨by omega, by omega, ?_, ih4⟩
      intro k h1 h2
      rcases Nat.eq_or_lt_of_le h1 with h1' | h1'
      · rw [← h1']
        exact hcond.2
      · exact ih3 k h1' h2
    · next hcond =>
      refine ⟨le_refl i, le_max_left _ _, fun k h1 h2 => absurd h2 (by omega), ?_⟩
      intro hij
      by_cases hlt : cmp (idx arr a) (idx arr i) < 0
      · exact hlt
      · exact absurd ⟨hij, hlt⟩ hcond

/-- What the second scan of `partitionEqualCmpFunc` guarantees. -/
theorem scanGt_spec (cmp : α → α → Int) (arr : Array α) (a i : Nat) (hi1 : 1 ≤ i) :
    ∀ (fuel j : Nat), j + 2 - i ≤ fuel →
      scanGt cmp arr a i j fuel ≤ j ∧
      min (i - 1) j ≤ scanGt cmp arr a i j fuel ∧
      (∀ k, scanGt cmp arr a i j fuel < k → k ≤ j → cmp (idx arr a) (idx arr k) < 0) ∧
      (i ≤ scanGt cmp arr a i j fuel →
        ¬ cmp (idx arr a) (idx arr (scanGt cmp arr a i j fuel)) < 0)
  | 0, j, hfuel => by
    rw [scanGt]
    refine ⟨le_refl j, min_le_right _ _, fun k h1 h2 => absurd h1 (by omega), ?_⟩
    intro hij
    exact absurd hij (by omega)
  | fuel + 1, j, hfuel => by
    rw [scanGt]
    split
    · next hcond =>
      obtain ⟨ih1, ih2, ih3, ih4⟩ := scanGt_spec cmp arr a i hi1 fuel (j - 1) (by omega)
      have hij := hcond.1
      refine ⟨by omega, by omega, ?_, ih4⟩
      intro k h1 h2
      rcases Nat.eq_or_lt_of_le h2 with h2' | h2'
      · rw [h2']
        exact hcond.2
      · exact ih3 k h1 (by omega)
    · next hcond =>
      refine ⟨le_refl j, min_le_right _ _, fun k h1 h2 => absurd h1 (by omega), ?_⟩
      intro hij
      by_cases hlt : cmp (idx arr a) (idx arr j) < 0
      · exact absurd ⟨hij, hlt⟩ hcond
      · exact hlt

/-- What the advancing scan of `partialInsertionSortCmpFunc` guarantees. -/
theorem advanceSorted_spec (cmp : α → α → Int) (arr : Array α) (b : Nat) :
    ∀ (fuel i : Nat), b + 1 - i ≤ fuel →
      i ≤ advanceSorted cmp arr b i fuel ∧
      advanceSorted cmp arr b i fuel ≤ max i b ∧
      (∀ k, i ≤ k → k < advanceSorted cmp arr b i fuel →
        ¬ cmp (idx arr k) (idx arr (k - 1)) < 0) ∧
      (advanceSorted cmp arr b i fuel < b →
        cmp (idx arr (advanceSorted cmp arr b i fuel))
          (idx arr (advanceSorted cmp arr b i fuel - 1)) < 0)
  | 0, i, hfuel => by
    rw [advanceSorted]
    refine ⟨le_refl i, le_max_left i b, fun k h1 h2 => absurd h2 (by omega), ?_⟩
    intro hib
    exact absurd hib (by omega)
  | fuel + 1, i, hfuel => by
    rw [advanceSorted]
    split
    · next hcond =>
      obtain ⟨ih1, ih2, ih3, ih4⟩ := advanceSorted_spec cmp arr b fuel (i + 1) (by omega)
      have hib := hcond.1
      refine ⟨by omega, by omega, ?_, ih4⟩
      intro k h1 h2
      rcases Nat.eq_or_lt_of_le h1 with h1' | h1'
      · rw [← h1']
        exact hcond.2
      · exact ih3 k h1' h2
    · next hcond =>
      refine ⟨le_refl i, le_max_left _ _, fun k h1 h2 => absurd h2 (by omega), ?_⟩
      intro hib
      by_cases hlt : cmp (idx arr i) (idx arr (i - 1)) < 0
      · exact hlt
      · exact absurd ⟨hib, hlt⟩ hcond

/-- The insertion inner loop swaps only inside `[a, b)`. -/
theorem insertInner_rearr (cmp : α → α → Int) (a b : Nat) :
    ∀ (j : Nat) (arr : Array α), j < b → b ≤ arr.size →
      Rearranges (insertInner cmp a arr j) arr a b
  | 0, arr, _, _ => by
    rw [insertInner]
    exact rearr_refl arr a b
  | j + 1, arr, hj, hb => by
    rw [insertInner]
    split
    · next hcond =>
      have hr := rearr_aswap hb (show a ≤ j + 1 by omega) hj (show a ≤ j by omega)
        (show j < b by omega)
      exact rearr_trans
        (insertInner_rearr cmp a b j _ (by omega) (by rw [size_aswap]; exact hb)) hr
    · exact rearr_refl arr a b

/-- The insertion outer loop swaps only inside `[a, b)`. -/
theorem insertionSortLoop_rearr (cmp : α → α → Int) (a b : Nat) :
    ∀ (fuel i : Nat) (arr : Array α), b ≤ arr.size →
      Rearranges (insertionSortLoop cmp a b arr i fuel) arr a b
  | 0, i, arr, _ => by
    rw [insertionSortLoop]
    exact rearr_refl arr a b
  | fuel + 1, i, arr, hb => by
    rw [insertionSortLoop]
    split
    · next hib =>
      have h1 := insertInner_rearr cmp a b i arr hib hb
      exact rearr_trans
        (insertionSortLoop_rearr cmp a b fuel (i + 1) _ (by rw [h1.1]; exact hb)) h1
    · exact rearr_refl arr a b

/-- `insertionSortCmpFunc` swaps only inside `[a, b)`. -/
theorem goInsertionSort_rearr (cmp : α → α → Int) (arr : Array α) (a b : Nat)
    (hb : b ≤ arr.size) : Rearranges (goInsertionSort cmp arr a b) arr a b :=
  insertionSortLoop_rearr cmp a b b (a + 1) arr hb

/-- The reversal loop swaps only inside `[a, b)`. -/
theorem reverseRangeLoop_rearr (a b : Nat) :
    ∀ (fuel i j : Nat) (arr : Array α), a ≤ i → j < b → b ≤ arr.size →
      Rearranges (reverseRangeLoop arr i j fuel) arr a b
  | 0, i, j, arr, _, _, _ => by
    rw [reverseRangeLoop]
    exact rearr_refl arr a b
  | fuel + 1, i, j, arr, hi, hj, hb => by
    rw [reverseRangeLoop]
    split
    · next hij =>
      have hr := rearr_aswap hb hi (show i < b by omega) (show a ≤ j by omega) hj
      exact rearr_trans
        (reverseRangeLoop_rearr a b fuel (i + 1) (j - 1) _ (by omega) (by omega)
          (by rw [size_aswap]; exact hb)) hr
    · exact rearr_refl arr a b

/-- `reverseRangeCmpFunc` swaps only inside `[a, b)`. -/
theorem goReverseRange_rearr (arr : Array α) (a b : Nat) (hab : a < b)
    (hb : b ≤ arr.size) : Rearranges (goReverseRange arr a b) arr a b :=
  reverseRangeLoop_rearr a b b a (b - 1) arr (le_refl a) (by omega) hb

/-- The right-shift loop swaps only inside `[a, b)`. -/
theorem shiftRightLoop_rearr (cmp : α → α → Int) (a b : Nat) :
    ∀ (fuel j : Nat) (arr : Array α), a + 1 ≤ j → b ≤ arr.size →
      Rearranges (shiftRightLoop cmp b arr j fuel) arr a b
  | 0, j, arr, _, _ => by
    rw [shiftRightLoop]
    exact rearr_refl arr a b
  | fuel + 1, j, arr, hj, hb => by
    rw [shiftRightLoop]
    split
    · next hjb =>
      split
      · next hlt =>
        have hr := rearr_aswap hb (show a ≤ j by omega) (show j < b by omega)
          (show a ≤ j - 1 by omega) (show j - 1 < b by omega)
        exact rearr_trans
          (shiftRightLoop_rearr cmp a b fuel (j + 1) _ (by omega)
            (by rw [size_aswap]; exact hb)) hr
      · exact rearr_refl arr a b
    · exact rearr_refl arr a b

/-- The partition loop swaps only inside `[a, b)`, and its returned pivot
position lies in `[a, b)`. -/
theorem partitionLoop_rearr (cmp : α → α → Int) (a b : Nat) :
    ∀ (fuel i j : Nat) (arr : Array α), a + 1 ≤ i → a ≤ j → j < b → b ≤ arr.size →
      Rearranges (partitionLoop cmp a b arr i j fuel).1 arr a b ∧
      a ≤ (partitionLoop cmp a b arr i j fuel).2 ∧
      (partitionLoop cmp a b arr i j fuel).2 < b
  | 0, i, j, arr, hi, hja, hjb, hb => by
    rw [partitionLoop]
    exact ⟨rearr_refl arr a b, hja, hjb⟩
  | fuel + 1, i, j, arr, hi, hja, hjb, hb => by
    rw [partitionLoop]
    obtain ⟨hs11, hs12, hs13, hs14⟩ := scanLt_spec cmp arr a j b i (by omega)
    obtain ⟨hs21, hs22, hs23, hs24⟩ :=
      scanGe_spec cmp arr a (scanLt cmp arr a j i b) (by omega) b j (by omega)
    set I := scanLt cmp arr a j i b with hIdef
    set J := scanGe cmp arr a I j b with hJdef
    split
    · next hgt =>
      exact ⟨rearr_refl arr a b, by omega, by omega⟩
    · next hle =>
      have hr := rearr_aswap hb (show a ≤ I by omega) (show I < b by omega)
        (show a ≤ J by omega) (show J < b by omega)
      obtain ⟨ih1, ih2, ih3⟩ := partitionLoop_rearr cmp a b fuel (I + 1) (J - 1)
        (aswap arr I J) (by omega) (by omega) (by omega) (by rw [size_aswap]; exact hb)
      exact ⟨rearr_trans ih1 hr, ih2, ih3⟩

/-- The equal-partition loop swaps only inside `[a, b)`, and its returned
boundary lies in `(a, b]`. -/
theorem peqLoop_rearr (cmp : α → α → Int) (a b : Nat) :
    ∀ (fuel i j : Nat) (arr : Array α), a + 1 ≤ i → i ≤ b → a ≤ j → j < b →
      b ≤ arr.size →
      Rearranges (peqLoop cmp a b arr i j fuel).1 arr a b ∧
      a + 1 ≤ (peqLoop cmp a b arr i j fuel).2 ∧
      (peqLoop cmp a b arr i j fuel).2 ≤ b
  | 0, i, j, arr, hi, hib, hja, hjb, hb => by
    rw [peqLoop]
    exact ⟨rearr_refl arr a b, hi, hib⟩
  | fuel + 1, i, j, arr, hi, hib, hja, hjb, hb => by
    rw [peqLoop]
    obtain ⟨hs11, hs12, hs13, hs14⟩ := scanLe_spec cmp arr a j b i (by omega)
    obtain ⟨hs21, hs22, hs23, hs24⟩ :=
      scanGt_spec cmp arr a (scanLe cmp arr a j i b) (by omega) b j (by omega)
    set I := scanLe cmp arr a j i b with hIdef
    set J := scanGt cmp arr a I j b with hJdef
    split
    · next hgt =>
      exact ⟨rearr_refl arr a b, by omega, by omega⟩
    · next hle =>
      have hr := rearr_aswap hb (show a ≤ I by omega) (show I < b by omega)
        (show a ≤ J by omega) (show J < b by omega)
      obtain ⟨ih1, ih2, ih3⟩ := peqLoop_rearr cmp a b fuel (I + 1) (J - 1)
        (aswap arr I J) (by omega) (by omega) (by omega) (by omega)
        (by rw [size_aswap]; exact hb)
      exact ⟨rearr_trans ih1 hr, ih2, ih3⟩

/-- The reduced remainder taken by `breakPatternsCmpFunc` stays below the
range length. -/
theorem bpOther_lt (modulus length x : Nat) (h0 : 0 < modulus)
    (hmod : modulus ≤ 2 * length) (hlen1 : 0 < length) :
    (if x % modulus ≥ length then x % modulus - length else x % modulus) < length := by
  have h := Nat.mod_lt x h0
  split <;> omega

/-- The pattern-breaking loop swaps only inside `[a, b)`. -/
theorem bpLoop_rearr (modulus length a b : Nat) (h0 : 0 < modulus)
    (hmod : modulus ≤ 2 * length) (hlen : length = b - a) (hab : a < b) :
    ∀ (n r pos : Nat) (arr : Array α), a ≤ pos → pos + n ≤ b → b ≤ arr.size →
      Rearranges (bpLoop modulus length a arr r pos n) arr a b
  | 0, r, pos, arr, _, _, _ => by
    rw [bpLoop]
    exact rearr_refl arr a b
  | n + 1, r, pos, arr, hpos, hpn, hb => by
    rw [bpLoop]
    have h1 := bpOther_lt modulus length (xorshiftNext r) h0 hmod (by omega)
    have hv : a + (if xorshiftNext r % modulus ≥ length then xorshiftNext r % modulus - length
        else xorshiftNext r % modulus) < b := by omega
    have hr := rearr_aswap hb hpos (show pos < b by omega) (Nat.le_add_right a _) hv
    exact rearr_trans
      (bpLoop_rearr modulus length a b h0 hmod hlen hab n (xorshiftNext r) (pos + 1) _
        (by omega) (by omega) (by rw [size_aswap]; exact hb)) hr

/-- `bits.Len` gives `2 ^ bitsLen n ≤ 2 * n` for positive `n`. -/
theorem two_pow_bitsLen_le (n : Nat) (h : 1 ≤ n) : 2 ^ bitsLen n ≤ 2 * n := by
  unfold bitsLen
  rw [if_neg (show ¬ n = 0 by omega), pow_succ]
  have := Nat.log2_self_le (show n ≠ 0 by omega)
  omega

/-- `breakPatternsCmpFunc` swaps only inside `[a, b)`. -/
theorem goBreakPatterns_rearr (arr : Array α) (a b : Nat) (hb : b ≤ arr.size) :
    Rearranges (goBreakPatterns arr a b) arr a b := by
  rw [goBreakPatterns]
  split
  · next h8 =>
    exact bpLoop_rearr (2 ^ bitsLen (b - a)) (b - a) a b (pow_pos (by omega) _)
      (two_pow_bitsLen_le (b - a) (by omega)) rfl (by omega) 3 (b - a)
      (a + (b - a) / 4 * 2 - 1) arr (by omega) (by omega) hb
  · exact rearr_refl arr a b

/-- `order2CmpFunc` returns its two indices in one of the two orders. -/
theorem order2_fst (cmp : α → α → Int) (arr : Array α) (x y s : Nat) :
    (order2 cmp arr x y s).1 = x ∨ (order2 cmp arr x y s).1 = y := by
  unfold order2
  split
  · exact Or.inr rfl
  · exact Or.inl rfl

/-- The middle component of `order2CmpFunc` is also one of the two indices. -/
theorem order2_snd (cmp : α → α → Int) (arr : Array α) (x y s : Nat) :
    (order2 cmp arr x y s).2.1 = x ∨ (order2 cmp arr x y s).2.1 = y := by
  unfold order2
  split
  · exact Or.inl rfl
  · exact Or.inr rfl

/-- `medianCmpFunc` returns one of its three indices. -/
theorem median_fst (cmp : α → α → Int) (arr : Array α) (x y c s : Nat) :
    (median cmp arr x y c s).1 = x ∨ (median cmp arr x y c s).1 = y ∨
      (median cmp arr x y c s).1 = c := by
  have hdef : (median cmp arr x y c s).1 =
      (order2 cmp arr (order2 cmp arr x y s).1
        (order2 cmp arr (order2 cmp arr x y s).2.1 c (order2 cmp arr x y s).2.2).1
        (order2 cmp arr (order2 cmp arr x y s).2.1 c
          (order2 cmp arr x y s).2.2).2.2).2.1 := rfl
  rw [hdef]
  rcases order2_snd cmp arr (order2 cmp arr x y s).1
      (order2 cmp arr (order2 cmp arr x y s).2.1 c (order2 cmp arr x y s).2.2).1
      (order2 cmp arr (order2 cmp arr x y s).2.1 c (order2 cmp arr x y s).2.2).2.2
    with h | h <;> rw [h]
  · rcases order2_fst cmp arr x y s with h1 | h1 <;> rw [h1]
    · exact Or.inl rfl
    · exact Or.inr (Or.inl rfl)
  · rcases order2_fst cmp arr (order2 cmp arr x y s).2.1 c (order2 cmp arr x y s).2.2
      with h1 | h1 <;> rw [h1]
    · rcases order2_snd cmp arr x y s with h2 | h2 <;> rw [h2]
      · exact Or.inl rfl
      · exact Or.inr (Or.inl rfl)
    · exact Or.inr (Or.inr rfl)

/-- Bounds for `medianCmpFunc` from bounds on the three indices. -/
theorem median_bounds (cmp : α → α → Int) (arr : Array α) {x y c s lo hi : Nat}
    (hx : lo ≤ x ∧ x < hi) (hy : lo ≤ y ∧ y < hi) (hc : lo ≤ c ∧ c < hi) :
    lo ≤ (median cmp arr x y c s).1 ∧ (median cmp arr x y c s).1 < hi := by
  rcases median_fst cmp arr x y c s with h | h | h <;> rw [h]
  exacts [hx, hy, hc]

/-- Bounds for `medianAdjacentCmpFunc`. -/
theorem medianAdjacent_bounds (cmp : α → α → Int) (arr : Array α) {i s lo hi : Nat}
    (h1 : lo + 1 ≤ i) (h2 : i + 1 < hi) :
    lo ≤ (medianAdjacent cmp arr i s).1 ∧ (medianAdjacent cmp arr i s).1 < hi := by
  have hdef : (medianAdjacent cmp arr i s).1 = (median cmp arr (i - 1) i (i + 1) s).1 := rfl
  rw [hdef]
  rcases median_fst cmp arr (i - 1) i (i + 1) s with h | h | h <;> rw [h] <;>
    exact ⟨by omega, by omega⟩

/-- The pivot chosen by `choosePivotCmpFunc` lies inside `[a, b)`. -/
theorem choosePivot_mem (cmp : α → α → Int) (arr : Array α) (a b : Nat)
    (hlen : 13 ≤ b - a) :
    a ≤ (choosePivot cmp arr a b).1 ∧ (choosePivot cmp arr a b).1 < b := by
  simp only [choosePivot]
  rw [if_pos (show 8 ≤ b - a by omega)]
  by_cases h50 : 50 ≤ b - a
  · rw [if_pos h50]
    exact median_bounds cmp arr (medianAdjacent_bounds cmp arr (by omega) (by omega))
      (medianAdjacent_bounds cmp arr (by omega) (by omega))
      (medianAdjacent_bounds cmp arr (by omega) (by omega))
  · rw [if_neg h50]
    exact median_bounds cmp arr ⟨by omega, by omega⟩ ⟨by omega, by omega⟩
      ⟨by omega, by omega⟩

/-- The partition loop maintains the two scanned zones: at exit, everything in
`(a, res.2]` is `< pv` and everything in `(res.2, b)` is `≥ pv`, with the
pivot value still at `a`. -/
theorem partitionLoop_post (cmp : α → α → Int) (a b : Nat) (pv : α) :
    ∀ (fuel i j : Nat) (arr : Array α),
      j + 2 - i ≤ fuel →
      a + 1 ≤ i → a ≤ j → j < b → b ≤ arr.size →
      idx arr a = pv →
      (∀ k, a + 1 ≤ k → k < i → cmp (idx arr k) pv < 0) →
      (∀ k, j < k → k < b → ¬ cmp (idx arr k) pv < 0) →
      idx (partitionLoop cmp a b arr i j fuel).1 a = pv ∧
      (∀ k, a + 1 ≤ k → k ≤ (partitionLoop cmp a b arr i j fuel).2 →
        cmp (idx (partitionLoop cmp a b arr i j fuel).1 k) pv < 0) ∧
      (∀ k, (partitionLoop cmp a b arr i j fuel).2 < k → k < b →
        ¬ cmp (idx (partitionLoop cmp a b arr i j fuel).1 k) pv < 0)
  | 0, i, j, arr, hfuel, hi, hja, hjb, hb, hpv, hsmall, hbig => by
    rw [partitionLoop]
    exact ⟨hpv, fun k hk1 hk2 => hsmall k hk1 (by omega), hbig⟩
  | fuel + 1, i, j, arr, hfuel, hi, hja, hjb, hb, hpv, hsmall, hbig => by
    rw [partitionLoop]
    obtain ⟨hs11, hs12, hs13, hs14⟩ := scanLt_spec cmp arr a j b i (by omega)
    obtain ⟨hs21, hs22, hs23, hs24⟩ :=
      scanGe_spec cmp arr a (scanLt cmp arr a j i b) (by omega) b j (by omega)
    rw [hpv] at hs13 hs14 hs23 hs24
    set I := scanLt cmp arr a j i b with hIdef
    set J := scanGe cmp arr a I j b with hJdef
    split
    · next hgt =>
      refine ⟨hpv, ?_, ?_⟩
      · intro k hk1 hk2
        by_cases hki : k < i
        · exact hsmall k hk1 hki
        · exact hs13 k (by omega) (by omega)
      · intro k hk1 hk2
        by_cases hkj : k ≤ j
        · exact hs23 k hk1 hkj
        · exact hbig k (by omega) hk2
    · next hle =>
      have hIJ : I < J := by
        rcases Nat.lt_or_ge I J with h | h
        · exact h
        · exfalso
          have hIJeq : I = J := by omega
          have h1 := hs24 (by omega)
          have h2 := hs14 (by omega)
          rw [← hIJeq] at h1
          exact h2 h1
      have hIb : I < b := by omega
      have hswap := idx_aswap (show I < arr.size by omega) (show J < arr.size by omega)
      have hsz : (aswap arr I J).size = arr.size := size_aswap arr I J
      have hpv1 : idx (aswap arr I J) a = pv := by
        rw [hswap a, if_neg (by omega), if_neg (by omega)]
        exact hpv
      have hsmall1 : ∀ k, a + 1 ≤ k → k < I + 1 → cmp (idx (aswap arr I J) k) pv < 0 := by
        intro k hk1 hk2
        by_cases hkI : k = I
        · rw [hswap k, if_pos hkI]
          exact hs24 (by omega)
        · rw [hswap k, if_neg hkI, if_neg (by omega)]
          by_cases hki : k < i
          · exact hsmall k hk1 hki
          · exact hs13 k (by omega) (by omega)
      have hbig1 : ∀ k, J - 1 < k → k < b → ¬ cmp (idx (aswap arr I J) k) pv < 0 := by
        intro k hk1 hk2
        by_cases hkJ : k = J
        · rw [hswap k, if_neg (by omega), if_pos hkJ]
          exact hs14 (by omega)
        · rw [hswap k, if_neg (by omega), if_neg hkJ]
          by_cases hkj : k ≤ j
          · exact hs23 k (by omega) hkj
          · exact hbig k (by omega) hk2
      exact partitionLoop_post cmp a b pv fuel (I + 1) (J - 1) (aswap arr I J)
        (by omega) (by omega) (by omega) (by omega) (by rw [hsz]; exact hb)
        hpv1 hsmall1 hbig1

/-- `partitionCmpFunc` places the pivot value at the returned position, with
strictly smaller elements before it and `≥` elements after it, rearranging
only inside `[a, b)`. -/
theorem goPartition_spec (cmp : α → α → Int) (arr0 : Array α) (a b pivot : Nat)
    (hab : a < b) (hpa : a ≤ pivot) (hpb : pivot < b) (hb : b ≤ arr0.size) :
    a ≤ (goPartition cmp arr0 a b pivot).2.1 ∧
    (goPartition cmp arr0 a b pivot).2.1 < b ∧
    idx (goPartition cmp arr0 a b pivot).1 (goPartition cmp arr0 a b pivot).2.1 =
      idx arr0 pivot ∧
    (∀ k, a ≤ k → k < (goPartition cmp arr0 a b pivot).2.1 →
      cmp (idx (goPartition cmp arr0 a b pivot).1 k) (idx arr0 pivot) < 0) ∧
    (∀ k, (goPartition cmp arr0 a b pivot).2.1 < k → k < b →
      ¬ cmp (idx (goPartition cmp arr0 a b pivot).1 k) (idx arr0 pivot) < 0) ∧
    Rearranges (goPartition cmp arr0 a b pivot).1 arr0 a b := by
  rw [goPartition]
  set A := aswap arr0 a pivot with hAdef
  have hAsz : A.size = arr0.size := by
    rw [hAdef]
    exact size_aswap arr0 a pivot
  have hApv : idx A a = idx arr0 pivot := by
    rw [hAdef,
      idx_aswap (show a < arr0.size by omega) (show pivot < arr0.size by omega) a,
      if_pos rfl]
  have hArearr : Rearranges A arr0 a b := by
    rw [hAdef]
    exact rearr_aswap hb (le_refl a) hab hpa hpb
  obtain ⟨hs11, hs12, hs13, hs14⟩ := scanLt_spec cmp A a (b - 1) b (a + 1) (by omega)
  obtain ⟨hs21, hs22, hs23, hs24⟩ :=
    scanGe_spec cmp A a (scanLt cmp A a (b - 1) (a + 1) b) (by omega) b (b - 1) (by omega)
  rw [hApv] at hs13 hs14 hs23 hs24
  set I := scanLt cmp A a (b - 1) (a + 1) b with hIdef
  set J := scanGe cmp A a I (b - 1) b with hJdef
  split
  · next hgt =>
    have hJb : J < b := by omega
    have hJa : a ≤ J := by omega
    show a ≤ J ∧ J < b ∧ idx (aswap A J a) J = idx arr0 pivot ∧
      (∀ k, a ≤ k → k < J → cmp (idx (aswap A J a) k) (idx arr0 pivot) < 0) ∧
      (∀ k, J < k → k < b → ¬ cmp (idx (aswap A J a) k) (idx arr0 pivot) < 0) ∧
      Rearranges (aswap A J a) arr0 a b
    have hsw := idx_aswap (show J < A.size by omega) (show a < A.size by omega)
    refine ⟨hJa, hJb, ?_, ?_, ?_, ?_⟩
    · rw [hsw J, if_pos rfl]
      exact hApv
    · intro k hk1 hk2
      have hJa1 : a + 1 ≤ J := by omega
      by_cases hka : k = a
      · rw [hsw k, if_neg (by omega), if_pos hka]
        exact hs13 J hJa1 (by omega)
      · rw [hsw k, if_neg (by omega), if_neg hka]
        exact hs13 k (by omega) (by omega)
    · intro k hk1 hk2
      rw [hsw k, if_neg (by omega), if_neg (by omega)]
      exact hs23 k hk1 (by omega)
    · exact rearr_trans
        (rearr_aswap (show b ≤ A.size by omega) hJa hJb (le_refl a) hab) hArearr
  · next hle =>
    have hIJ : I < J := by
      rcases Nat.lt_or_ge I J with h | h
      · exact h
      · exfalso
        have hIJeq : I = J := by omega
        have h1 := hs24 (by omega)
        have h2 := hs14 (by omega)
        rw [← hIJeq] at h1
        exact h2 h1
    have hIb : I < b := by omega
    have hJb : J < b := by omega
    set R := partitionLoop cmp a b (aswap A I J) (I + 1) (J - 1) b with hRdef
    show a ≤ R.2 ∧ R.2 < b ∧
      idx (aswap R.1 R.2 a) R.2 = idx arr0 pivot ∧
      (∀ k, a ≤ k → k < R.2 →
        cmp (idx (aswap R.1 R.2 a) k) (idx arr0 pivot) < 0) ∧
      (∀ k, R.2 < k → k < b →
        ¬ cmp (idx (aswap R.1 R.2 a) k) (idx arr0 pivot) < 0) ∧
      Rearranges (aswap R.1 R.2 a) arr0 a b
    have hswIJ := idx_aswap (show I < A.size by omega) (show J < A.size by omega)
    have hSsz : (aswap A I J).size = A.size := size_aswap A I J
    have hpv1 : idx (aswap A I J) a = idx arr0 pivot := by
      rw [hswIJ a, if_neg (by omega), if_neg (by omega)]
      exact hApv
    have hsmall1 : ∀ k, a + 1 ≤ k → k < I + 1 →
        cmp (idx (aswap A I J) k) (idx arr0 pivot) < 0 := by
      intro k hk1 hk2
      by_cases hkI : k = I
      · rw [hswIJ k, if_pos hkI]
        exact hs24 (by omega)
      · rw [hswIJ k, if_neg hkI, if_neg (by omega)]
        exact hs13 k hk1 (by omega)
    have hbig1 : ∀ k, J - 1 < k → k < b →
        ¬ cmp (idx (aswap A I J) k) (idx arr0 pivot) < 0 := by
      intro k hk1 hk2
      by_cases hkJ : k = J
      · rw [hswIJ k, if_neg (by omega), if_pos hkJ]
        exact hs14 (by omega)
      · rw [hswIJ k, if_neg (by omega), if_neg hkJ]
        exact hs23 k (by omega) (by omega)
    obtain ⟨hp1, hp2, hp3⟩ := partitionLoop_post cmp a b (idx arr0 pivot) b (I + 1)
      (J - 1) (aswap A I J) (by omega) (by omega) (by omega) (by omega)
      (by rw [hSsz]; omega) hpv1 hsmall1 hbig1
    obtain ⟨hr1, hr2, hr3⟩ := partitionLoop_rearr cmp a b b (I + 1) (J - 1)
      (aswap A I J) (by omega) (by omega) (by omega) (by rw [hSsz]; omega)
    rw [← hRdef] at hp1 hp2 hp3 hr1 hr2 hr3
    have hRsz : R.1.size = arr0.size := by
      rw [hr1.1, hSsz, hAsz]
    have hswF := idx_aswap (show R.2 < R.1.size by omega) (show a < R.1.size by omega)
    refine ⟨hr2, hr3, ?_, ?_, ?_, ?_⟩
    · rw [hswF R.2, if_pos rfl]
      exact hp1
    · intro k hk1 hk2
      by_cases hka : k = a
      · rw [hswF k, if_neg (by omega), if_pos hka]
        exact hp2 R.2 (by omega) (le_refl _)
      · rw [hswF k, if_neg (by omega), if_neg hka]
        exact hp2 k (by omega) (by omega)
    · intro k hk1 hk2
      rw [hswF k, if_neg (by omega), if_neg (by omega)]
      exact hp3 k hk1 hk2
    · exact rearr_trans
        (rearr_aswap (show b ≤ R.1.size by omega) hr2 hr3 (le_refl a) hab)
        (rearr_trans hr1
          (rearr_trans
            (rearr_aswap (show b ≤ A.size by omega) (by omega) hIb (by omega) hJb)
            hArearr))

/-- The equal-partition loop: at exit everything in `[a, res.2)` is `≤ pv` and
everything in `[res.2, b)` is `> pv`, with the pivot value still at `a`. -/
theorem peqLoop_post (cmp : α → α → Int) (a b : Nat) (pv : α) :
    ∀ (fuel i j : Nat) (arr : Array α),
      j + 2 - i ≤ fuel →
      a + 1 ≤ i → a ≤ j → j < b → b ≤ arr.size →
      idx arr a = pv →
      (∀ k, a + 1 ≤ k → k < i → ¬ cmp pv (idx arr k) < 0) →
      (∀ k, j < k → k < b → cmp pv (idx arr k) < 0) →
      idx (peqLoop cmp a b arr i j fuel).1 a = pv ∧
      (∀ k, a + 1 ≤ k → k < (peqLoop cmp a b arr i j fuel).2 →
        ¬ cmp pv (idx (peqLoop cmp a b arr i j fuel).1 k) < 0) ∧
      (∀ k, (peqLoop cmp a b arr i j fuel).2 ≤ k → k < b →
        cmp pv (idx (peqLoop cmp a b arr i j fuel).1 k) < 0)
  | 0, i, j, arr, hfuel, hi, hja, hjb, hb, hpv, hsmall, hbig => by
    rw [peqLoop]
    exact ⟨hpv, hsmall, fun k hk1 hk2 => hbig k (by omega) hk2⟩
  | fuel + 1, i, j, arr, hfuel, hi, hja, hjb, hb, hpv, hsmall, hbig => by
    rw [peqLoop]
    obtain ⟨hs11, hs12, hs13, hs14⟩ := scanLe_spec cmp arr a j b i (by omega)
    obtain ⟨hs21, hs22, hs23, hs24⟩ :=
      scanGt_spec cmp arr a (scanLe cmp arr a j i b) (by omega) b j (by omega)
    rw [hpv] at hs13 hs14 hs23 hs24
    set I := scanLe cmp arr a j i b with hIdef
    set J := scanGt cmp arr a I j b with hJdef
    split
    · next hgt =>
      refine ⟨hpv, ?_, ?_⟩
      · intro k hk1 hk2
        by_cases hki : k < i
        · exact hsmall k hk1 hki
        · exact hs13 k (by omega) (by omega)
      · intro k hk1 hk2
        by_cases hkj : k ≤ j
        · exact hs23 k (by omega) hkj
        · exact hbig k (by omega) hk2
    · next hle =>
      have hIJ : I < J := by
        rcases Nat.lt_or_ge I J with h | h
        · exact h
        · exfalso
          have hIJeq : I = J := by omega
          have h1 := hs24 (by omega)
          have h2 := hs14 (by omega)
          rw [hIJeq] at h2
          exact h1 h2
      have hIb : I < b := by omega
      have hswap := idx_aswap (show I < arr.size by omega) (show J < arr.size by omega)
      have hsz : (aswap arr I J).size = arr.size := size_aswap arr I J
      have hpv1 : idx (aswap arr I J) a = pv := by
        rw [hswap a, if_neg (by omega), if_neg (by omega)]
        exact hpv
      have hsmall1 : ∀ k, a + 1 ≤ k → k < I + 1 →
          ¬ cmp pv (idx (aswap arr I J) k) < 0 := by
        intro k hk1 hk2
        by_cases hkI : k = I
        · rw [hswap k, if_pos hkI]
          exact hs24 (by omega)
        · rw [hswap k, if_neg hkI, if_neg (by omega)]
          by_cases hki : k < i
          · exact hsmall k hk1 hki
          · exact hs13 k (by omega) (by omega)
      have hbig1 : ∀ k, J - 1 < k → k < b → cmp pv (idx (aswap arr I J) k) < 0 := by
        intro k hk1 hk2
        by_cases hkJ : k = J
        · rw [hswap k, if_neg (by omega), if_pos hkJ]
          exact hs14 (by omega)
        · rw [hswap k, if_neg (by omega), if_neg hkJ]
          by_cases hkj : k ≤ j
          · exact hs23 k (by omega) hkj
          · exact hbig k (by omega) hk2
      exact peqLoop_post cmp a b pv fuel (I + 1) (J - 1) (aswap arr I J)
        (by omega) (by omega) (by omega) (by omega) (by rw [hsz]; exact hb)
        hpv1 hsmall1 hbig1

/-- `partitionEqualCmpFunc` splits `[a, b)` into a nonempty prefix of elements
`≤` the pivot value and a suffix of elements `>` it, rearranging only inside
`[a, b)`. -/
theorem goPartitionEqual_spec (cmp : α → α → Int) (hok : CmpOK cmp) (arr0 : Array α)
    (a b pivot : Nat) (hab : a < b) (hpa : a ≤ pivot) (hpb : pivot < b)
    (hb : b ≤ arr0.size) :
    a + 1 ≤ (goPartitionEqual cmp arr0 a b pivot).2 ∧
    (goPartitionEqual cmp arr0 a b pivot).2 ≤ b ∧
    (∀ k, a ≤ k → k < (goPartitionEqual cmp arr0 a b pivot).2 →
      ¬ cmp (idx arr0 pivot) (idx (goPartitionEqual cmp arr0 a b pivot).1 k) < 0) ∧
    (∀ k, (goPartitionEqual cmp arr0 a b pivot).2 ≤ k → k < b →
      cmp (idx arr0 pivot) (idx (goPartitionEqual cmp arr0 a b pivot).1 k) < 0) ∧
    Rearranges (goPartitionEqual cmp arr0 a b pivot).1 arr0 a b := by
  rw [goPartitionEqual]
  set A := aswap arr0 a pivot with hAdef
  have hAsz : A.size = arr0.size := by
    rw [hAdef]
    exact size_aswap arr0 a pivot
  have hApv : idx A a = idx arr0 pivot := by
    rw [hAdef,
      idx_aswap (show a < arr0.size by omega) (show pivot < arr0.size by omega) a,
      if_pos rfl]
  have hArearr : Rearranges A arr0 a b := by
    rw [hAdef]
    exact rearr_aswap hb (le_refl a) hab hpa hpb
  obtain ⟨hp1, hp2, hp3⟩ := peqLoop_post cmp a b (idx arr0 pivot) b (a + 1) (b - 1) A
    (by omega) (le_refl _) (by omega) (by omega) (by omega) hApv
    (fun k hk1 hk2 => absurd hk2 (by omega)) (fun k hk1 hk2 => absurd hk1 (by omega))
  obtain ⟨hr1, hr2, hr3⟩ := peqLoop_rearr cmp a b b (a + 1) (b - 1) A (le_refl _)
    (by omega) (by omega) (by omega) (by omega)
  refine ⟨hr2, hr3, ?_, hp3, rearr_trans hr1 hArearr⟩
  intro k hk1 hk2
  rcases Nat.eq_or_lt_of_le hk1 with hka | hka
  · rw [← hka, hp1]
    exact cmpok_le_refl hok (idx arr0 pivot)
  · exact hp2 k (by omega) hk2

/-- `LocalHeap` unfolded. -/
theorem localHeap_iff (cmp : α → α → Int) (arr : Array α) (first hi k : Nat) :
    LocalHeap cmp arr first hi k ↔
      ((2 * k + 1 < hi → cmpLE cmp (idx arr (first + (2 * k + 1))) (idx arr (first + k))) ∧
       (2 * k + 2 < hi → cmpLE cmp (idx arr (first + (2 * k + 2))) (idx arr (first + k)))) :=
  Iff.rfl

/-- The sift-down loop swaps only inside `[a2, b2)` when the tree fits there. -/
theorem siftDownLoop_rearr (cmp : α → α → Int) (hi first a2 b2 : Nat) (h1 : a2 ≤ first)
    (h2 : first + hi ≤ b2) :
    ∀ (fuel root : Nat) (arr : Array α), b2 ≤ arr.size →
      Rearranges (siftDownLoop cmp hi first arr root fuel) arr a2 b2
  | 0, root, arr, hsz => by
    rw [siftDownLoop]
    exact rearr_refl arr a2 b2
  | fuel + 1, root, arr, hsz => by
    rw [siftDownLoop]
    split
    · exact rearr_refl arr a2 b2
    · next hguard =>
      lift_lets
      extract_lets child
      have hchild : child = if 2 * root + 1 + 1 < hi ∧
          cmp (idx arr (first + (2 * root + 1))) (idx arr (first + (2 * root + 1) + 1)) < 0
          then 2 * root + 1 + 1 else 2 * root + 1 := rfl
      have hchild_lt : child < hi := by
        rw [hchild]
        split
        · next h => exact h.1
        · omega
      split
      · exact rearr_refl arr a2 b2
      · have hr := rearr_aswap hsz (show a2 ≤ first + root by omega)
          (show first + root < b2 by omega) (show a2 ≤ first + child by omega)
          (show first + child < b2 by omega)
        exact rearr_trans (siftDownLoop_rearr cmp hi first a2 b2 h1 h2 fuel child _
          (by rw [size_aswap]; exact hsz)) hr

/-- `siftDownCmpFunc` restores the heap property at its root: all nodes from
`root` on are locally heap-ordered afterwards; positions outside the root's
write zone are untouched; and the new root value is bounded by any common
upper bound of the old root and its children. -/
theorem siftDownLoop_spec (cmp : α → α → Int) (hok : CmpOK cmp) (hi first : Nat) :
    ∀ (fuel root : Nat) (arr : Array α),
      hi - root ≤ fuel → first + hi ≤ arr.size →
      (∀ k, root < k → LocalHeap cmp arr first hi k) →
      (∀ k, root ≤ k → LocalHeap cmp (siftDownLoop cmp hi first arr root fuel) first hi k) ∧
      (siftDownLoop cmp hi first arr root fuel).size = arr.size ∧
      (∀ p, (p ≠ first + root ∧ p < first + (2 * root + 1)) ∨ first + hi ≤ p →
        idx (siftDownLoop cmp hi first arr root fuel) p = idx arr p) ∧
      (∀ x, cmpLE cmp (idx arr (first + root)) x →
        (∀ c, (c = 2 * root + 1 ∨ c = 2 * root + 2) → c < hi →
          cmpLE cmp (idx arr (first + c)) x) →
        cmpLE cmp (idx (siftDownLoop cmp hi first arr root fuel) (first + root)) x)
  | 0, root, arr, hfuel, hsize, hpre => by
    rw [siftDownLoop]
    refine ⟨?_, rfl, fun p hp => rfl, fun x hx1 hx2 => hx1⟩
    intro k hk
    rcases Nat.eq_or_lt_of_le hk with hk' | hk'
    · rw [localHeap_iff, ← hk']
      exact ⟨fun hc => absurd hc (by omega), fun hc => absurd hc (by omega)⟩
    · exact hpre k hk'
  | fuel + 1, root, arr, hfuel, hsize, hpre => by
    rw [siftDownLoop]
    split
    · next hguard =>
      refine ⟨?_, rfl, fun p hp => rfl, fun x hx1 hx2 => hx1⟩
      intro k hk
      rcases Nat.eq_or_lt_of_le hk with hk' | hk'
      · rw [localHeap_iff, ← hk']
        exact ⟨fun hc => absurd hc (by omega), fun hc => absurd hc (by omega)⟩
      · exact hpre k hk'
    · next hguard =>
      lift_lets
      extract_lets child
      have hchild : child = if 2 * root + 1 + 1 < hi ∧
          cmp (idx arr (first + (2 * root + 1))) (idx arr (first + (2 * root + 1) + 1)) < 0
          then 2 * root + 1 + 1 else 2 * root + 1 := rfl
      have hchild_mem : child = 2 * root + 1 ∨ child = 2 * root + 1 + 1 := by
        rw [hchild]
        split
        · exact Or.inr rfl
        · exact Or.inl rfl
      have hchild_lt : child < hi := by
        rw [hchild]
        split
        · next h => exact h.1
        · omega
      have hmax : ∀ c, c = 2 * root + 1 ∨ c = 2 * root + 1 + 1 → c < hi →
          cmpLE cmp (idx arr (first + c)) (idx arr (first + child)) := by
        intro c hcm hchi
        rcases hcm with h | h <;> rw [h]
        · by_cases hsel : 2 * root + 1 + 1 < hi ∧
              cmp (idx arr (first + (2 * root + 1))) (idx arr (first + (2 * root + 1) + 1)) < 0
          · rw [hchild, if_pos hsel]
            exact cmpok_le_of_lt hok hsel.2
          · rw [hchild, if_neg hsel]
            exact cmpok_le_refl hok _
        · by_cases hsel : 2 * root + 1 + 1 < hi ∧
              cmp (idx arr (first + (2 * root + 1))) (idx arr (first + (2 * root + 1) + 1)) < 0
          · rw [hchild, if_pos hsel]
            exact cmpok_le_refl hok _
          · rw [hchild, if_neg hsel]
            intro hB
            exact hsel ⟨by omega, hB⟩
      split
      · next hstop =>
        refine ⟨?_, rfl, fun p hp => rfl, fun x hx1 hx2 => hx1⟩
        intro k hk
        rcases Nat.eq_or_lt_of_le hk with hk' | hk'
        · rw [localHeap_iff, ← hk']
          have hchosen : cmpLE cmp (idx arr (first + child)) (idx arr (first + root)) := hstop
          exact ⟨fun hc => hok.le_trans _ _ _ (hmax (2 * root + 1) (Or.inl rfl) hc) hchosen,
            fun hc => hok.le_trans _ _ _ (hmax (2 * root + 2) (by omega) hc) hchosen⟩
        · exact hpre k hk'
      · next hswapcond =>
        have hlt : cmp (idx arr (first + root)) (idx arr (first + child)) < 0 :=
          not_not.mp hswapcond
        have hrh : root < hi := by omega
        have hru : first + root < arr.size := by omega
        have hcu : first + child < arr.size := by omega
        have hsw := idx_aswap hru hcu
        have hswsz : (aswap arr (first + root) (first + child)).size = arr.size :=
          size_aswap arr (first + root) (first + child)
        have hrc : root < child := by omega
        have pre2 : ∀ k, child < k →
            LocalHeap cmp (aswap arr (first + root) (first + child)) first hi k := by
          intro k hk
          have hp := hpre k (by omega)
          rw [localHeap_iff] at hp
          rw [localHeap_iff]
          constructor
          · intro hc
            rw [hsw (first + (2 * k + 1)), if_neg (by omega), if_neg (by omega),
              hsw (first + k), if_neg (by omega), if_neg (by omega)]
            exact hp.1 hc
          · intro hc
            rw [hsw (first + (2 * k + 2)), if_neg (by omega), if_neg (by omega),
              hsw (first + k), if_neg (by omega), if_neg (by omega)]
            exact hp.2 hc
        obtain ⟨ih1, ih2, ih3, ih4⟩ := siftDownLoop_spec cmp hok hi first fuel child
          (aswap arr (first + root) (first + child)) (by omega)
          (by rw [hswsz]; exact hsize) pre2
        have huntouched : ∀ m, root < m → m < 2 * child + 1 → m ≠ child →
            idx (siftDownLoop cmp hi first (aswap arr (first + root) (first + child))
              child fuel) (first + m) = idx arr (first + m) := by
          intro m hm1 hm2 hm3
          rw [ih3 (first + m) (Or.inl ⟨by omega, by omega⟩), hsw (first + m),
            if_neg (by omega), if_neg (by omega)]
        have hRroot :
            idx (siftDownLoop cmp hi first (aswap arr (first + root) (first + child))
              child fuel) (first + root) = idx arr (first + child) := by
          rw [ih3 (first + root) (Or.inl ⟨by omega, by omega⟩), hsw (first + root),
            if_pos rfl]
        have hkey : cmpLE cmp
            (idx (siftDownLoop cmp hi first (aswap arr (first + root) (first + child))
              child fuel) (first + child)) (idx arr (first + child)) := by
          refine ih4 (idx arr (first + child)) ?_ ?_
          · have h : idx (aswap arr (first + root) (first + child)) (first + child) =
                idx arr (first + root) := by
              rw [hsw (first + child), if_neg (by omega), if_pos rfl]
            rw [h]
            exact cmpok_le_of_lt hok hlt
          · intro c hcm hchi
            have h : idx (aswap arr (first + root) (first + child)) (first + c) =
                idx arr (first + c) := by
              rw [hsw (first + c), if_neg (by omega), if_neg (by omega)]
            rw [h]
            have hpc := hpre child (by omega)
            rw [localHeap_iff] at hpc
            rcases hcm with h2 | h2
            · rw [h2]
              exact hpc.1 (by omega)
            · rw [h2]
              exact hpc.2 (by omega)
        refine ⟨?_, ih2.trans hswsz, ?_, ?_⟩
        · intro k hk
          rcases Nat.lt_or_ge k child with hkc | hkc
          · rcases Nat.eq_or_lt_of_le hk with hk' | hk'
            · rw [localHeap_iff, ← hk']
              constructor
              · intro hc
                rw [hRroot]
                by_cases hcc : 2 * root + 1 = child
                · rw [hcc]
                  exact hkey
                · rw [huntouched (2 * root + 1) (by omega) (by omega) hcc]
                  exact hmax (2 * root + 1) (Or.inl rfl) hc
              · intro hc
                rw [hRroot]
                by_cases hcc : 2 * root + 2 = child
                · rw [hcc]
                  exact hkey
                · rw [huntouched (2 * root + 2) (by omega) (by omega) hcc]
                  exact hmax (2 * root + 2) (by omega) hc
            · rw [localHeap_iff]
              have hp := hpre k hk'
              rw [localHeap_iff] at hp
              constructor
              · intro hc
                rw [huntouched (2 * k + 1) (by omega) (by omega) (by omega),
                  huntouched k (by omega) (by omega) (by omega)]
                exact hp.1 hc
              · intro hc
                rw [huntouched (2 * k + 2) (by omega) (by omega) (by omega),
                  huntouched k (by omega) (by omega) (by omega)]
                exact hp.2 hc
          · exact ih1 k hkc
        · intro p hp
          rcases hp with ⟨hp1, hp2⟩ | hp3
          · rw [ih3 p (Or.inl ⟨by omega, by omega⟩), hsw p, if_neg hp1, if_neg (by omega)]
          · rw [ih3 p (Or.inr hp3), hsw p, if_neg (by omega), if_neg (by omega)]
        · intro x hx1 hx2
          rw [hRroot]
          exact hx2 child (by omega) hchild_lt

/-- The maximum of a heap sits at its root. -/
theorem heap_max (cmp : α → α → Int) (hok : CmpOK cmp) (arr : Array α) (first m : Nat)
    (hheap : ∀ k, k < m → LocalHeap cmp arr first m k) :
    ∀ k, k < m → cmpLE cmp (idx arr (first + k)) (idx arr first) := by
  intro k
  induction k using Nat.strong_induction_on with
  | _ k ih =>
    intro hk
    rcases Nat.eq_zero_or_pos k with hk0 | hk0
    · subst hk0
      simpa using cmpok_le_refl hok (idx arr first)
    · have hp : (k - 1) / 2 < k := by omega
      have hchild : k = 2 * ((k - 1) / 2) + 1 ∨ k = 2 * ((k - 1) / 2) + 2 := by omega
      have hloc := hheap ((k - 1) / 2) (by omega)
      rw [localHeap_iff] at hloc
      have hstep : cmpLE cmp (idx arr (first + k)) (idx arr (first + (k - 1) / 2)) := by
        rcases hchild with h | h
        · have hh := hloc.1 (by omega)
          rw [← h] at hh
          exact hh
        · have hh := hloc.2 (by omega)
          rw [← h] at hh
          exact hh
      exact hok.le_trans _ _ _ hstep (ih ((k - 1) / 2) hp (by omega))

/-- The heap-building loop swaps only inside `[a2, b2)`. -/
theorem heapBuildLoop_rearr (cmp : α → α → Int) (hi first a2 b2 : Nat) (h1 : a2 ≤ first)
    (h2 : first + hi ≤ b2) :
    ∀ (n : Nat) (arr : Array α), b2 ≤ arr.size →
      Rearranges (heapBuildLoop cmp hi first arr n) arr a2 b2
  | 0, arr, _ => by
    rw [heapBuildLoop]
    exact rearr_refl arr a2 b2
  | n + 1, arr, hsz => by
    rw [heapBuildLoop]
    have hgd : goSiftDown cmp arr n hi first = siftDownLoop cmp hi first arr n hi := rfl
    rw [hgd]
    have hsd := siftDownLoop_rearr cmp hi first a2 b2 h1 h2 hi n arr hsz
    exact rearr_trans (heapBuildLoop_rearr cmp hi first a2 b2 h1 h2 n _
      (by rw [hsd.1]; exact hsz)) hsd

/-- The heap-popping loop swaps only inside `[a2, b2)`. -/
theorem heapPopLoop_rearr (cmp : α → α → Int) (first hi a2 b2 : Nat) (h1 : a2 ≤ first)
    (h2 : first + hi ≤ b2) :
    ∀ (n : Nat) (arr : Array α), n ≤ hi → b2 ≤ arr.size →
      Rearranges (heapPopLoop cmp first arr n) arr a2 b2
  | 0, arr, _, _ => by
    rw [heapPopLoop]
    exact rearr_refl arr a2 b2
  | n + 1, arr, hn, hsz => by
    rw [heapPopLoop]
    have hgd : goSiftDown cmp (aswap arr first (first + n)) 0 n first =
        siftDownLoop cmp n first (aswap arr first (first + n)) 0 n := rfl
    rw [hgd]
    have hswr := rearr_aswap hsz h1 (show first < b2 by omega)
      (show a2 ≤ first + n by omega) (show first + n < b2 by omega)
    have hsd := siftDownLoop_rearr cmp n first a2 b2 h1 (by omega) n 0
      (aswap arr first (first + n)) (by rw [size_aswap]; exact hsz)
    exact rearr_trans (heapPopLoop_rearr cmp first hi a2 b2 h1 h2 n _ (by omega)
      (by rw [hsd.1, size_aswap]; exact hsz)) (rearr_trans hsd hswr)

/-- The heap-building loop establishes the heap property everywhere. -/
theorem heapBuildLoop_spec (cmp : α → α → Int) (hok : CmpOK cmp) (hi first : Nat) :
    ∀ (count : Nat) (arr : Array α), first + hi ≤ arr.size →
      (∀ k, count ≤ k → LocalHeap cmp arr first hi k) →
      (∀ k, LocalHeap cmp (heapBuildLoop cmp hi first arr count) first hi k) ∧
      (heapBuildLoop cmp hi first arr count).size = arr.size
  | 0, arr, hsz, hpre => by
    rw [heapBuildLoop]
    exact ⟨fun k => hpre k (Nat.zero_le k), rfl⟩
  | n + 1, arr, hsz, hpre => by
    rw [heapBuildLoop]
    have hgd : goSiftDown cmp arr n hi first = siftDownLoop cmp hi first arr n hi := rfl
    rw [hgd]
    obtain ⟨hs1, hs2, hs3, hs4⟩ := siftDownLoop_spec cmp hok hi first hi n arr (by omega)
      hsz (fun k hk => hpre k (by omega))
    obtain ⟨ih1, ih2⟩ := heapBuildLoop_spec cmp hok hi first n
      (siftDownLoop cmp hi first arr n hi) (by rw [hs2]; exact hsz) hs1
    exact ⟨ih1, ih2.trans hs2⟩

/-- The heap-popping loop turns a heap with a sorted dominated tail into a
fully sorted range. -/
theorem heapPopLoop_spec (cmp : α → α → Int) (hok : CmpOK cmp) (first hi : Nat) :
    ∀ (n : Nat) (arr : Array α), n ≤ hi → first + hi ≤ arr.size →
      (∀ k, LocalHeap cmp arr first n k) →
      SortedRange cmp arr (first + n) (first + hi) →
      (∀ p q, p < n → n ≤ q → q < hi →
        cmpLE cmp (idx arr (first + p)) (idx arr (first + q))) →
      SortedRange cmp (heapPopLoop cmp first arr n) first (first + hi) ∧
      (heapPopLoop cmp first arr n).size = arr.size ∧
      (∀ p, first + n ≤ p → idx (heapPopLoop cmp first arr n) p = idx arr p)
  | 0, arr, hn, hsz, hheap, hsorted, hcross => by
    rw [heapPopLoop]
    exact ⟨hsorted, rfl, fun p hp => rfl⟩
  | n + 1, arr, hn, hsz, hheap, hsorted, hcross => by
    rw [heapPopLoop]
    have hgd : goSiftDown cmp (aswap arr first (first + n)) 0 n first =
        siftDownLoop cmp n first (aswap arr first (first + n)) 0 n := rfl
    rw [hgd]
    have hu : first < arr.size := by omega
    have hv : first + n < arr.size := by omega
    have hsw := idx_aswap hu hv
    have hSsz : (aswap arr first (first + n)).size = arr.size :=
      size_aswap arr first (first + n)
    have pre2 : ∀ k, 0 < k → LocalHeap cmp (aswap arr first (first + n)) first n k := by
      intro k hk
      have hp := hheap k
      rw [localHeap_iff] at hp
      rw [localHeap_iff]
      constructor
      · intro hc
        rw [hsw (first + (2 * k + 1)), if_neg (by omega), if_neg (by omega),
          hsw (first + k), if_neg (by omega), if_neg (by omega)]
        exact hp.1 (by omega)
      · intro hc
        rw [hsw (first + (2 * k + 2)), if_neg (by omega), if_neg (by omega),
          hsw (first + k), if_neg (by omega), if_neg (by omega)]
        exact hp.2 (by omega)
    obtain ⟨hs1, hs2, hs3, hs4⟩ := siftDownLoop_spec cmp hok n first n 0
      (aswap arr first (first + n)) (by omega) (by rw [hSsz]; omega) pre2
    have hrear : Rearranges (siftDownLoop cmp n first (aswap arr first (first + n)) 0 n)
        (aswap arr first (first + n)) first (first + n) :=
      siftDownLoop_rearr cmp n first first (first + n) (le_refl _) (le_refl _) n 0
        (aswap arr first (first + n)) (by rw [hSsz]; omega)
    have hRtail : ∀ p, first + n ≤ p →
        idx (siftDownLoop cmp n first (aswap arr first (first + n)) 0 n) p =
          idx (aswap arr first (first + n)) p :=
      fun p hp => hs3 p (Or.inr hp)
    have hval_n : idx (siftDownLoop cmp n first (aswap arr first (first + n)) 0 n)
        (first + n) = idx arr first := by
      rw [hRtail (first + n) (le_refl _), hsw (first + n)]
      by_cases h : first + n = first
      · rw [if_pos h, h]
      · rw [if_neg h, if_pos rfl]
    have hval_gt : ∀ q, first + n < q →
        idx (siftDownLoop cmp n first (aswap arr first (first + n)) 0 n) q = idx arr q := by
      intro q hq
      rw [hRtail q (by omega), hsw q, if_neg (by omega), if_neg (by omega)]
    have hheap2 : ∀ k,
        LocalHeap cmp (siftDownLoop cmp n first (aswap arr first (first + n)) 0 n)
          first n k :=
      fun k => hs1 k (Nat.zero_le k)
    have hsorted2 : SortedRange cmp
        (siftDownLoop cmp n first (aswap arr first (first + n)) 0 n)
        (first + n) (first + hi) := by
      intro p q hp hpq hq
      rcases Nat.eq_or_lt_of_le hp with hp2 | hp2
      · rw [← hp2, hval_n, hval_gt q (by omega)]
        have hq1 := hcross 0 (q - first) (by omega) (by omega) (by omega)
        have heq : first + (q - first) = q := by omega
        rw [heq] at hq1
        exact hq1
      · rw [hval_gt p hp2, hval_gt q (by omega)]
        exact hsorted p q (by omega) hpq hq
    have hcross2 : ∀ p q, p < n → n ≤ q → q < hi →
        cmpLE cmp
          (idx (siftDownLoop cmp n first (aswap arr first (first + n)) 0 n) (first + p))
          (idx (siftDownLoop cmp n first (aswap arr first (first + n)) 0 n) (first + q)) := by
      intro p q hpn hnq hqhi
      obtain ⟨q2, hq1, hq2, hq3⟩ := hrear.2.2 (first + p) (by omega) (by omega)
      have hbound : ∃ w, w < n + 1 ∧ idx (aswap arr first (first + n)) q2 =
          idx arr (first + w) := by
        by_cases hq4 : q2 = first
        · refine ⟨n, by omega, ?_⟩
          rw [hq4, hsw first, if_pos rfl]
        · refine ⟨q2 - first, by omega, ?_⟩
          rw [hsw q2, if_neg hq4, if_neg (by omega)]
          congr 1
          omega
      obtain ⟨w, hw1, hw2⟩ := hbound
      rw [hq3, hw2]
      rcases Nat.eq_or_lt_of_le hnq with hq4 | hq4
      · rw [← hq4, hval_n]
        exact heap_max cmp hok arr first (n + 1) (fun k _ => hheap k) w hw1
      · rw [hval_gt (first + q) (by omega)]
        exact hcross w q hw1 (by omega) hqhi
    obtain ⟨ihs, ihsz, ihframe⟩ := heapPopLoop_spec cmp hok first hi n
      (siftDownLoop cmp n first (aswap arr first (first + n)) 0 n) (by omega)
      (by rw [hs2, hSsz]; exact hsz) hheap2 hsorted2 hcross2
    refine ⟨ihs, ?_, ?_⟩
    · rw [ihsz, hs2, hSsz]
    · intro p hp
      rw [ihframe p (by omega), hval_gt p (by omega)]

/-- `heapSortCmpFunc` sorts `[a, b)` and rearranges only inside it. -/
theorem goHeapSort_spec (cmp : α → α → Int) (hok : CmpOK cmp) (arr : Array α) (a b : Nat)
    (hab : a < b) (hb : b ≤ arr.size) :
    SortedRange cmp (goHeapSort cmp arr a b) a b ∧
    Rearranges (goHeapSort cmp arr a b) arr a b := by
  rw [goHeapSort]
  obtain ⟨hb1, hb2⟩ := heapBuildLoop_spec cmp hok (b - a) a ((b - a - 1) / 2 + 1) arr
    (by omega)
    (fun k hk => by
      rw [localHeap_iff]
      exact ⟨fun hc => absurd hc (by omega), fun hc => absurd hc (by omega)⟩)
  obtain ⟨hp1, hp2, hp3⟩ := heapPopLoop_spec cmp hok a (b - a) (b - a)
    (heapBuildLoop cmp (b - a) a arr ((b - a - 1) / 2 + 1)) (le_refl _)
    (by rw [hb2]; omega) (fun k => hb1 k)
    (fun p q hp hpq hq => absurd hq (by omega))
    (fun p q hp hq1 hq2 => absurd hq2 (by omega))
  refine ⟨?_, ?_⟩
  · intro p q h1 h2 h3
    exact hp1 p q h1 h2 (by omega)
  · exact rearr_trans
      (heapPopLoop_rearr cmp a (b - a) a b (le_refl _) (by omega) (b - a) _ (le_refl _)
        (by rw [hb2]; exact hb))
      (heapBuildLoop_rearr cmp (b - a) a a b (le_refl _) (by omega)
        ((b - a - 1) / 2 + 1) arr hb)

/-- Under the left-context invariant the unbounded left shift of
`partialInsertionSortCmpFunc` cannot cross `a`: it coincides with the
insertion inner loop bounded at `a`. -/
theorem shiftLeftLoop_eq (cmp : α → α → Int) (a b : Nat) :
    ∀ (j : Nat) (arr : Array α), a ≤ j → j + 1 < b → b ≤ arr.size →
      Ctx cmp arr a b →
      shiftLeftLoop cmp arr j = insertInner cmp a arr j
  | 0, arr, h1, h2, hb, hctx => by
    rw [shiftLeftLoop, insertInner]
  | j + 1, arr, h1, h2, hb, hctx => by
    rw [shiftLeftLoop, insertInner]
    by_cases haj : a < j + 1
    · by_cases hlt : cmp (idx arr (j + 1)) (idx arr j) < 0
      · rw [if_pos hlt, if_pos ⟨haj, hlt⟩]
        exact shiftLeftLoop_eq cmp a b j (aswap arr (j + 1) j) (by omega) (by omega)
          (by rw [size_aswap]; exact hb)
          (ctx_rearr hctx (rearr_aswap hb (by omega) (show j + 1 < b by omega) (by omega)
            (by omega)))
      · rw [if_neg hlt, if_neg (fun h => hlt h.2)]
    · have hle := hctx j (j + 1) (by omega) (by omega) (by omega)
      rw [if_neg hle, if_neg (fun h => haj h.1)]

/-- The partial-insertion-sort loop rearranges only inside `[a, b)` (given the
left context, its left shifts stop at `a`), and a `true` result certifies the
range sorted. -/
theorem pInsertionSortLoop_spec (cmp : α → α → Int) (hok : CmpOK cmp) (a b : Nat) :
    ∀ (steps i : Nat) (arr : Array α),
      a + 1 ≤ i → i ≤ b → b ≤ arr.size →
      Ctx cmp arr a b →
      SortedRange cmp arr a i →
      Rearranges (pInsertionSortLoop cmp a b arr i steps).1 arr a b ∧
      ((pInsertionSortLoop cmp a b arr i steps).2 = true →
        SortedRange cmp (pInsertionSortLoop cmp a b arr i steps).1 a b)
  | 0, i, arr, hi1, hib, hb, hctx, hsorted => by
    rw [pInsertionSortLoop]
    exact ⟨rearr_refl arr a b, fun h => by simp at h⟩
  | steps + 1, i, arr, hi1, hib, hb, hctx, hsorted => by
    rw [pInsertionSortLoop]
    obtain ⟨ha1, ha2, ha3, ha4⟩ := advanceSorted_spec cmp arr b b i (by omega)
    set I := advanceSorted cmp arr b i b with hIdef
    have hIb : I ≤ b := by omega
    have hsortI : SortedRange cmp arr a I :=
      sortedRange_extend hok hsorted I (by omega) (fun k hk1 hk2 => ha3 k hk1 hk2)
    split
    · next hIeqb =>
      exact ⟨rearr_refl arr a b, fun _ => hIeqb ▸ hsortI⟩
    · next hIneb =>
      split
      · next hsmallrange =>
        exact ⟨rearr_refl arr a b, fun h => by simp at h⟩
      · next hbigrange =>
        lift_lets
        extract_lets arr1 arr2 arr3
        have hIltb : I < b := by omega
        have hdesc : cmp (idx arr I) (idx arr (I - 1)) < 0 := ha4 hIltb
        have hIa : a + 1 ≤ I := by omega
        have harr1 : arr1 = aswap arr I (I - 1) := rfl
        have hrearr1 : Rearranges arr1 arr a b := by
          rw [harr1]
          exact rearr_aswap hb (by omega) hIltb (by omega) (by omega)
        have hctx1 : Ctx cmp arr1 a b := ctx_rearr hctx hrearr1
        have hsz1 : arr1.size = arr.size := hrearr1.1
        have hswap1 := idx_aswap (show I < arr.size by omega)
          (show I - 1 < arr.size by omega)
        have hA : SortedRange cmp arr1 a (I - 1) := by
          intro p q hp1 hp2 hp3
          rw [harr1, hswap1 p, if_neg (by omega), if_neg (by omega),
            hswap1 q, if_neg (by omega), if_neg (by omega)]
          exact hsortI p q hp1 hp2 (by omega)
        have harr2 : arr2 = if 2 ≤ I - a then shiftLeftLoop cmp arr1 (I - 1) else arr1 :=
          rfl
        have h2main : SortedRange cmp arr2 a I ∧ Rearranges arr2 arr1 a b := by
          rw [harr2]
          split
          · next hcase =>
            have heq := shiftLeftLoop_eq cmp a b (I - 1) arr1 (by omega) (by omega)
              (by rw [hsz1]; exact hb) hctx1
            rw [heq]
            obtain ⟨hs2sorted, hs2size⟩ := insertInner_invariant cmp hok.asym hok.le_trans
              a (I - 1) (I - 1) arr1 (le_refl _) (by omega) hA
              (fun p q hp hpq hq => (by omega : False).elim)
              (fun p q hap hpj hq hqi => (by omega : False).elim)
              (fun q hq hqi => (by omega : False).elim)
            constructor
            · have heq2 : I - 1 + 1 = I := by omega
              rw [heq2] at hs2sorted
              exact hs2sorted
            · exact insertInner_rearr cmp a b (I - 1) arr1 (by omega)
                (by rw [hsz1]; exact hb)
          · next hcase =>
            refine ⟨fun p q hp1 hp2 hp3 => ?_, rearr_refl arr1 a b⟩
            exact absurd hp3 (by omega)
        have hsort2 := h2main.1
        have hrearr2 := h2main.2
        have hsz2 : arr2.size = arr.size := hrearr2.1.trans hsz1
        have hctx2 : Ctx cmp arr2 a b := ctx_rearr hctx1 hrearr2
        have harr3 : arr3 = if 2 ≤ b - I then shiftRightLoop cmp b arr2 (I + 1) b else arr2 :=
          rfl
        have hrearr3 : Rearranges arr3 arr2 I b := by
          rw [harr3]
          split
          · exact shiftRightLoop_rearr cmp I b b (I + 1) arr2 (by omega)
              (by rw [hsz2]; exact hb)
          · exact rearr_refl arr2 I b
        have hrearr3w : Rearranges arr3 arr2 a b := rearr_widen hrearr3 (by omega) (le_refl _)
        have hsort3 : SortedRange cmp arr3 a I := by
          intro p q hp1 hp2 hp3
          rw [hrearr3.2.1 p (Or.inl (by omega)), hrearr3.2.1 q (Or.inl hp3)]
          exact hsort2 p q hp1 hp2 hp3
        have hctx3 : Ctx cmp arr3 a b := ctx_rearr hctx2 hrearr3w
        have hrearrAll : Rearranges arr3 arr a b :=
          rearr_trans hrearr3w (rearr_trans hrearr2 hrearr1)
        obtain ⟨ihr, ihs⟩ := pInsertionSortLoop_spec cmp hok a b steps I arr3 hIa hIb
          (by rw [hrearrAll.1]; exact hb) hctx3 hsort3
        exact ⟨rearr_trans ihr hrearrAll, ihs⟩

/-- `partialInsertionSortCmpFunc` under the left context: it rearranges only
inside `[a, b)`, and returns `true` only with the range sorted. -/
theorem goPInsertionSort_spec (cmp : α → α → Int) (hok : CmpOK cmp) (arr : Array α)
    (a b : Nat) (hab : a < b) (hb : b ≤ arr.size) (hctx : Ctx cmp arr a b) :
    Rearranges (goPInsertionSort cmp arr a b).1 arr a b ∧
    ((goPInsertionSort cmp arr a b).2 = true →
      SortedRange cmp (goPInsertionSort cmp arr a b).1 a b) :=
  pInsertionSortLoop_spec cmp hok a b 5 (a + 1) arr (le_refl _) (by omega) hb hctx
    (fun p q hp hpq hq => (by omega : False).elim)

/-- `pdqsortCmpFunc` sorts its range `[a, b)` for any admissible comparator:
with enough fuel (one more than the range length, as in `goSortFunc`), under
the left-context invariant, the result is sorted on `[a, b)` and is a
rearrangement of the input inside `[a, b)`. -/
theorem pdqsort_sorted (cmp : α → α → Int) (hok : CmpOK cmp) :
    ∀ (fuel : Nat) (arr : Array α) (a b limit : Nat) (wb wp : Bool),
      b - a + 1 ≤ fuel → b ≤ arr.size → Ctx cmp arr a b →
      SortedRange cmp (pdqsort cmp fuel arr a b limit wb wp) a b ∧
      Rearranges (pdqsort cmp fuel arr a b limit wb wp) arr a b
  | 0, arr, a, b, limit, wb, wp, hfuel, hb, hctx => absurd hfuel (by omega)
  | fuel + 1, arr, a, b, limit, wb, wp, hfuel, hb, hctx => by
    rw [pdqsort]
    split
    · next hsmall =>
      exact ⟨(goInsertionSort_sorted cmp hok.asym hok.le_trans arr a b hb).1,
        goInsertionSort_rearr cmp arr a b hb⟩
    · next hbig =>
      split
      · next hlimit0 =>
        exact goHeapSort_spec cmp hok arr a b (by omega) hb
      · next hlimitpos =>
        lift_lets
        extract_lets arr0 limit0 pv arr1 pivot hint psort
        have hlen : 13 ≤ b - a := by omega
        have hab : a < b := by omega
        have harr0 : Rearranges arr0 arr a b := by
          unfold_let arr0
          split
          · exact goBreakPatterns_rearr arr a b hb
          · exact rearr_refl arr a b
        have hctx0 : Ctx cmp arr0 a b := ctx_rearr hctx harr0
        have hsz0 : arr0.size = arr.size := harr0.1
        have hpvdef : pv = choosePivot cmp arr0 a b := rfl
        have hpv := choosePivot_mem cmp arr0 a b hlen
        rw [← hpvdef] at hpv
        have harr1 : Rearranges arr1 arr0 a b := by
          unfold_let arr1
          split
          · exact goReverseRange_rearr arr0 a b hab (by omega)
          · exact rearr_refl arr0 a b
        have hctx1 : Ctx cmp arr1 a b := ctx_rearr hctx0 harr1
        have hsz1 : arr1.size = arr.size := harr1.1.trans hsz0
        have hpivot : a ≤ pivot ∧ pivot < b := by
          unfold_let pivot
          split
          · exact ⟨by omega, by omega⟩
          · exact hpv
        have hpsort : Rearranges psort.1 arr1 a b ∧
            (psort.2 = true → SortedRange cmp psort.1 a b) := by
          unfold_let psort
          split
          · exact goPInsertionSort_spec cmp hok arr1 a b hab (by omega) hctx1
          · exact ⟨rearr_refl arr1 a b, fun h => by simp at h⟩
        split
        · next hptrue =>
          exact ⟨hpsort.2 hptrue, rearr_trans hpsort.1 (rearr_trans harr1 harr0)⟩
        · next hpfalse =>
          extract_lets arr2 pe pr mid wasBalanced1
          have harr2 : Rearranges arr2 arr a b :=
            rearr_trans hpsort.1 (rearr_trans harr1 harr0)
          have hctx2 : Ctx cmp arr2 a b := ctx_rearr hctx harr2
          have hsz2 : arr2.size = arr.size := harr2.1
          split
          · next hpeqcond =>
            have hpmin : ∀ k, a ≤ k → k < b →
                cmpLE cmp (idx arr2 pivot) (idx arr2 k) := by
              intro k hk1 hk2
              exact hok.le_trans _ _ _ hpeqcond.2 (hctx2 (a - 1) k (by omega) hk1 hk2)
            obtain ⟨hq1, hq2, hq3, hq4, hq5⟩ := goPartitionEqual_spec cmp hok arr2 a b
              pivot hab hpivot.1 hpivot.2 (by omega)
            have hpedef : pe = goPartitionEqual cmp arr2 a b pivot := rfl
            rw [← hpedef] at hq1 hq2 hq3 hq4 hq5
            have hszpe : pe.1.size = arr.size := hq5.1.trans hsz2
            have hminpe : ∀ k, a ≤ k → k < b →
                cmpLE cmp (idx arr2 pivot) (idx pe.1 k) := by
              intro k hk1 hk2
              obtain ⟨q2, hw1, hw2, hw3⟩ := hq5.2.2 k hk1 hk2
              rw [hw3]
              exact hpmin q2 hw1 hw2
            have hctxpe : Ctx cmp pe.1 pe.2 b := by
              intro p q hp hq12 hq22
              by_cases hpa : p < a
              · rw [hq5.2.1 p (Or.inl hpa)]
                obtain ⟨q2, hw1, hw2, hw3⟩ := hq5.2.2 q (by omega) hq22
                rw [hw3]
                exact hctx2 p q2 hpa hw1 hw2
              · exact cmpok_le_of_lt hok
                  (hok.le_lt _ _ _ (hq3 p (by omega) hp) (hq4 q hq12 hq22))
            obtain ⟨ihs, ihr⟩ := pdqsort_sorted cmp hok fuel pe.1 pe.2 b limit0 wb wp
              (by omega) (by omega) hctxpe
            constructor
            · intro p q hp1 hp2 hp3
              by_cases hqM : q < pe.2
              · rw [ihr.2.1 p (Or.inl (by omega)), ihr.2.1 q (Or.inl hqM)]
                exact hok.le_trans _ _ _ (hq3 p hp1 (by omega))
                  (hminpe q (by omega) (by omega))
              · by_cases hpM : p < pe.2
                · rw [ihr.2.1 p (Or.inl hpM)]
                  obtain ⟨q2, hw1, hw2, hw3⟩ := ihr.2.2 q (by omega) hp3
                  rw [hw3]
                  exact cmpok_le_of_lt hok
                    (hok.le_lt _ _ _ (hq3 p hp1 hpM) (hq4 q2 hw1 hw2))
                · exact ihs p q (by omega) hp2 hp3
            · exact rearr_trans (rearr_widen ihr (by omega) (le_refl _))
                (rearr_trans hq5 harr2)
          · next hpeqcondF =>
            obtain ⟨hP1, hP2, hP3, hP4, hP5, hP6⟩ := goPartition_spec cmp arr2 a b pivot
              hab hpivot.1 hpivot.2 (by omega)
            have hprdef : pr = goPartition cmp arr2 a b pivot := rfl
            rw [← hprdef] at hP1 hP2 hP3 hP4 hP5 hP6
            have hmiddef : mid = pr.2.1 := rfl
            rw [← hmiddef] at hP1 hP2 hP3 hP4 hP5
            have hszpr : pr.1.size = arr.size := hP6.1.trans hsz2
            split
            · next hLR =>
              have hctxL : Ctx cmp pr.1 a mid := by
                intro p q hp hq12 hq22
                rw [hP6.2.1 p (Or.inl hp)]
                obtain ⟨q2, hw1, hw2, hw3⟩ := hP6.2.2 q (by omega) (by omega)
                rw [hw3]
                exact hctx2 p q2 hp hw1 hw2
              obtain ⟨iLs, iLr⟩ := pdqsort_sorted cmp hok fuel pr.1 a mid limit0
                true true (by omega) (by omega) hctxL
              have hctxR : Ctx cmp (pdqsort cmp fuel pr.1 a mid limit0 true true)
                  (mid + 1) b := by
                intro p q hp hq12 hq22
                have hqv : idx (pdqsort cmp fuel pr.1 a mid limit0 true true) q =
                    idx pr.1 q := iLr.2.1 q (Or.inr (by omega))
                rw [hqv]
                by_cases hpa : p < a
                · rw [iLr.2.1 p (Or.inl hpa), hP6.2.1 p (Or.inl hpa)]
                  obtain ⟨q2, hw1, hw2, hw3⟩ := hP6.2.2 q (by omega) (by omega)
                  rw [hw3]
                  exact hctx2 p q2 hpa hw1 hw2
                · by_cases hpm : p < mid
                  · obtain ⟨p2, hw1, hw2, hw3⟩ := iLr.2.2 p (by omega) hpm
                    rw [hw3]
                    exact cmpok_le_of_lt hok
                      (hok.lt_le _ _ _ (hP4 p2 hw1 hw2) (hP5 q (by omega) hq22))
                  · have hpm2 : p = mid := by omega
                    rw [hpm2, iLr.2.1 mid (Or.inr (le_refl _)), hP3]
                    exact hP5 q (by omega) hq22
              obtain ⟨iRs, iRr⟩ := pdqsort_sorted cmp hok fuel
                (pdqsort cmp fuel pr.1 a mid limit0 true true) (mid + 1) b limit0
                wasBalanced1 pr.2.2 (by omega) (by rw [iLr.1, hszpr]; exact hb) hctxR
              constructor
              · intro p q hp1 hp2 hp3
                by_cases hqm : q < mid
                · rw [iRr.2.1 p (Or.inl (by omega)), iRr.2.1 q (Or.inl (by omega))]
                  exact iLs p q hp1 hp2 hqm
                · by_cases hqm2 : q = mid
                  · rw [hqm2, iRr.2.1 mid (Or.inl (by omega)),
                      iLr.2.1 mid (Or.inr (le_refl _)), hP3,
                      iRr.2.1 p (Or.inl (by omega))]
                    obtain ⟨p2, hw1, hw2, hw3⟩ := iLr.2.2 p hp1 (by omega)
                    rw [hw3]
                    exact cmpok_le_of_lt hok (hP4 p2 hw1 hw2)
                  · by_cases hpm : p < mid
                    · rw [iRr.2.1 p (Or.inl (by omega))]
                      obtain ⟨p2, hw1, hw2, hw3⟩ := iLr.2.2 p hp1 hpm
                      rw [hw3]
                      obtain ⟨q2, hx1, hx2, hx3⟩ := iRr.2.2 q (by omega) hp3
                      have hq2v : idx (pdqsort cmp fuel pr.1 a mid limit0 true true) q2 =
                          idx pr.1 q2 := iLr.2.1 q2 (Or.inr (by omega))
                      rw [hx3, hq2v]
                      exact cmpok_le_of_lt hok
                        (hok.lt_le _ _ _ (hP4 p2 hw1 hw2) (hP5 q2 (by omega) hx2))
                    · by_cases hpm2 : p = mid
                      · rw [hpm2, iRr.2.1 mid (Or.inl (by omega)),
                          iLr.2.1 mid (Or.inr (le_refl _)), hP3]
                        obtain ⟨q2, hx1, hx2, hx3⟩ := iRr.2.2 q (by omega) hp3
                        have hq2v : idx (pdqsort cmp fuel pr.1 a mid limit0 true true) q2 =
                            idx pr.1 q2 := iLr.2.1 q2 (Or.inr (by omega))
                        rw [hx3, hq2v]
                        exact hP5 q2 (by omega) hx2
                      · exact iRs p q (by omega) hp2 hp3
              · exact rearr_trans (rearr_widen iRr (by omega) (le_refl _))
                  (rearr_trans (rearr_widen iLr (le_refl _) (by omega))
                    (rearr_trans hP6 harr2))
            · next hLR =>
              have hctxR : Ctx cmp pr.1 (mid + 1) b := by
                intro p q hp hq12 hq22
                by_cases hpa : p < a
                · rw [hP6.2.1 p (Or.inl hpa)]
                  obtain ⟨q2, hw1, hw2, hw3⟩ := hP6.2.2 q (by omega) hq22
                  rw [hw3]
                  exact hctx2 p q2 hpa hw1 hw2
                · by_cases hpm : p < mid
                  · exact cmpok_le_of_lt hok
                      (hok.lt_le _ _ _ (hP4 p (by omega) hpm) (hP5 q (by omega) hq22))
                  · have hpm2 : p = mid := by omega
                    rw [hpm2, hP3]
                    exact hP5 q (by omega) hq22
              obtain ⟨iRs, iRr⟩ := pdqsort_sorted cmp hok fuel pr.1 (mid + 1) b limit0
                true true (by omega) (by omega) hctxR
              have hctxL : Ctx cmp (pdqsort cmp fuel pr.1 (mid + 1) b limit0 true true)
                  a mid := by
                intro p q hp hq12 hq22
                rw [iRr.2.1 p (Or.inl (by omega)), iRr.2.1 q (Or.inl (by omega)),
                  hP6.2.1 p (Or.inl hp)]
                obtain ⟨q2, hw1, hw2, hw3⟩ := hP6.2.2 q (by omega) (by omega)
                rw [hw3]
                exact hctx2 p q2 hp hw1 hw2
              obtain ⟨iLs, iLr⟩ := pdqsort_sorted cmp hok fuel
                (pdqsort cmp fuel pr.1 (mid + 1) b limit0 true true) a mid limit0
                wasBalanced1 pr.2.2 (by omega) (by rw [iRr.1, hszpr]; omega) hctxL
              constructor
              · intro p q hp1 hp2 hp3
                by_cases hqm : q < mid
                · exact iLs p q hp1 hp2 hqm
                · by_cases hqm2 : q = mid
                  · rw [hqm2, iLr.2.1 mid (Or.inr (le_refl _)),
                      iRr.2.1 mid (Or.inl (by omega)), hP3]
                    obtain ⟨p2, hw1, hw2, hw3⟩ := iLr.2.2 p hp1 (by omega)
                    have hp2v : idx (pdqsort cmp fuel pr.1 (mid + 1) b limit0 true true)
                        p2 = idx pr.1 p2 := iRr.2.1 p2 (Or.inl (by omega))
                    rw [hw3, hp2v]
                    exact cmpok_le_of_lt hok (hP4 p2 hw1 hw2)
                  · by_cases hpm : p < mid
                    · rw [iLr.2.1 q (Or.inr (by omega))]
                      obtain ⟨q2, hx1, hx2, hx3⟩ := iRr.2.2 q (by omega) hp3
                      rw [hx3]
                      obtain ⟨p2, hw1, hw2, hw3⟩ := iLr.2.2 p hp1 hpm
                      have hp2v : idx (pdqsort cmp fuel pr.1 (mid + 1) b limit0 true true)
                          p2 = idx pr.1 p2 := iRr.2.1 p2 (Or.inl (by omega))
                      rw [hw3, hp2v]
                      exact cmpok_le_of_lt hok
                        (hok.lt_le _ _ _ (hP4 p2 hw1 hw2) (hP5 q2 (by omega) hx2))
                    · by_cases hpm2 : p = mid
                      · rw [hpm2, iLr.2.1 mid (Or.inr (le_refl _)),
                          iRr.2.1 mid (Or.inl (by omega)), hP3,
                          iLr.2.1 q (Or.inr (by omega))]
                        obtain ⟨q2, hx1, hx2, hx3⟩ := iRr.2.2 q (by omega) hp3
                        rw [hx3]
                        exact hP5 q2 (by omega) hx2
                      · rw [iLr.2.1 p (Or.inr (by omega)), iLr.2.1 q (Or.inr (by omega))]
                        exact iRs p q (by omega) hp2 hp3
              · exact rearr_trans (rearr_widen iLr (le_refl _) (by omega))
                  (rearr_trans (rearr_widen iRr (by omega) (le_refl _))
                    (rearr_trans hP6 harr2))

/-- `slices.SortFunc` sorts the whole array for any admissible comparator. -/
theorem goSortFunc_sorted (cmp : α → α → Int) (hok : CmpOK cmp) (arr : Array α) :
    SortedRange cmp (goSortFunc cmp arr) 0 arr.size ∧
    (goSortFunc cmp arr).size = arr.size :=
  have h := pdqsort_sorted cmp hok (arr.size + 1) arr 0 arr.size (bitsLen arr.size)
    true true (by omega) (le_refl _) (fun p q hp hq1 hq2 => absurd hp (by omega))
  ⟨h.1, h.2.1⟩

end GoSortFull

/-- `cmpExpiry` reports a strict order exactly on strictly earlier expiry. -/
theorem cmpExpiry_lt (x y : Data) : cmpExpiry x y < 0 ↔ x.Expiry < y.Expiry := by
  unfold cmpExpiry
  split_ifs with h1 h2
  · simpa using h1
  · constructor
    · intro h
      exact absurd h (by decide)
    · intro h
      omega
  · constructor
    · intro h
      exact absurd h (by decide)
    · intro h
      omega

/-- The expiry comparator induces a total preorder. -/
theorem cmpExpiry_ok : CmpOK cmpExpiry := by
  constructor
  · intro x y h
    rw [cmpExpiry_lt] at *
    omega
  · intro x y z h1 h2
    unfold cmpLE at *
    rw [cmpExpiry_lt] at *
    omega
  · intro x y z h1 h2
    unfold cmpLE at *
    rw [cmpExpiry_lt] at *
    omega
  · intro x y z h1 h2
    unfold cmpLE at *
    rw [cmpExpiry_lt] at *
    omega

/-- `slices.SortFunc` with the expiry comparator sorts every list of entries
chronologically by expiry. -/
theorem sortByExpiry_sorted (l : List Data) :
    (SortByExpiry l).Pairwise (fun x y => x.Expiry ≤ y.Expiry) := by
  unfold SortByExpiry
  have h := goSortFunc_sorted cmpExpiry cmpExpiry_ok l.toArray
  rw [List.pairwise_iff_getElem]
  intro i j hi hj hij
  have hj' : j < (goSortFunc cmpExpiry l.toArray).size := by
    simpa using hj
  have hi' : i < (goSortFunc cmpExpiry l.toArray).size := by
    simpa using hi
  have hjb : j < l.toArray.size := by
    rw [← h.2]
    exact hj'
  have hord := h.1 i j (Nat.zero_le i) hij hjb
  unfold cmpLE at hord
  rw [cmpExpiry_lt, idx_lt hi', idx_lt hj'] at hord
  have hgi : (goSortFunc cmpExpiry l.toArray)[i] =
      (goSortFunc cmpExpiry l.toArray).toList[i] := rfl
  have hgj : (goSortFunc cmpExpiry l.toArray)[j] =
      (goSortFunc cmpExpiry l.toArray).toList[j] := rfl
  rw [hgi, hgj] at hord
  omega

/-- Claim C3 is false as stated: `SortByExpiry` calls `slices.SortFunc`, Go's
pattern-defeating quicksort, which is not stable.  On the 13-entry `c3Input`
the two equal-expiry entries keyed `"x1"` and `"x2"` come out in the opposite
relative order (the first partition's swaps move them past each other), even
though the output is correctly ordered by expiry. -/
theorem claim3_counterexample :
    (⟨5, "x1", []⟩ : Data).Expiry = (⟨5, "x2", []⟩ : Data).Expiry ∧
    c3Input.indexOf ⟨5, "x1", []⟩ < c3Input.indexOf ⟨5, "x2", []⟩ ∧
    (SortByExpiry c3Input).indexOf ⟨5, "x2", []⟩ <
      (SortByExpiry c3Input).indexOf ⟨5, "x1", []⟩ :=
  ⟨rfl, by decide, by decide⟩

/-- Claim C3 amended: the sort-by-expiry option returns, for every input, a
permutation of the input entries ordered chronologically by expiry timestamp;
but the sort is not stable: `slices.SortFunc` is a pattern-defeating
quicksort, and there are inputs on which two entries with equal expiry
timestamps lose their relative order (as on the exhibited 13-entry input). -/
theorem claim3_amended :
    (∀ l : List Data, (SortByExpiry l).Perm l) ∧
    (∀ l : List Data, (SortByExpiry l).Pairwise (fun x y => x.Expiry ≤ y.Expiry)) ∧
    (∃ (l : List Data) (d1 d2 : Data), d1.Expiry = d2.Expiry ∧
      l.indexOf d1 < l.indexOf d2 ∧
      (SortByExpiry l).indexOf d2 < (SortByExpiry l).indexOf d1) :=
  ⟨fun l => sortOption_perm SortByExpiry (Or.inl rfl) l,
    sortByExpiry_sorted,
    ⟨c3Input, ⟨5, "x1", []⟩, ⟨5, "x2", []⟩, rfl, by decide, by decide⟩⟩

/-- Witness for C10 on a two-entry well-formed directory at the boundary. -/
theorem claim10_witness :
    WF dirK ∧ (Filename "k", FileContent.json dK) ∈ dirK ∧ dK.Expiry = 10 ∧
    (Get dirK 10 "k" = .ok dK.Value ∧ Filename "k" ∉ ((Clean dirK 10).1.map (·.1))) :=
  ⟨by decide, by decide, by decide,
    claim10_boundary dirK 10 "k" dK (by decide) (by decide) (by decide)⟩

end DC
